import Mathlib

/-!
Verification development for the b-roll organizer
(`src/broll/{scanner,frames,embeddings,db,search,cli}.py`).

Shallow embedding conventions:
* Python floats are modelled as exact rationals (`ℚ`).
* Byte strings (file contents, frame bytes, embeddings blobs) are `List ℕ`.
* Python dicts are insertion-ordered association lists.
* Fallible calls return `Except`/`Option`; a raised exception is an
  `Except.error` / `none` value.
* External collaborators (ffprobe, ffmpeg, Ollama, SQLite's FTS5 and
  sqlite-vec engines, the wall clock) are parameters of the embedded
  functions; the md5 digest of `compute_file_hash` is modelled by the exact
  byte stream fed to the hasher (md5 is a fixed pure function of that
  stream, so equal streams give equal digests).
-/

namespace Broll

/-! ### Python string primitives, modelled structurally over `List Char` -/

/-- `p` is a prefix of `s` (Python `str.startswith`). -/
def strStarts (p s : String) : Bool := p.data.isPrefixOf s.data

/-- Drop leading whitespace characters. -/
def trimLeftChars : List Char → List Char
  | [] => []
  | c :: cs => if c.isWhitespace then trimLeftChars cs else c :: cs

/-- Python `str.strip()`: drop whitespace at both ends. -/
def strTrim (s : String) : String :=
  ⟨trimLeftChars ((trimLeftChars s.data.reverse).reverse)⟩

/-- Python `str.lower()`. -/
def lowerStr (s : String) : String := ⟨s.data.map Char.toLower⟩

/-- Python `str.upper()`. -/
def upperStr (s : String) : String := ⟨s.data.map Char.toUpper⟩

/-- Worker for whitespace splitting; `acc` is the current word, reversed. -/
def splitWsAux : List Char → List Char → List (List Char)
  | [], acc => if acc = [] then [] else [acc.reverse]
  | c :: cs, acc =>
    if c.isWhitespace then
      if acc = [] then splitWsAux cs [] else acc.reverse :: splitWsAux cs []
    else splitWsAux cs (c :: acc)

/-- Python `str.split()` with no argument: split on whitespace runs,
dropping empty pieces. -/
def splitWs (s : String) : List String := (splitWsAux s.data []).map String.mk

/-- Join a list of character lists with a separator (worker for
Python `sep.join(...)`). -/
def sepJoin (sep : List Char) : List (List Char) → List Char
  | [] => []
  | [a] => a
  | a :: b :: rest => a ++ sep ++ sepJoin sep (b :: rest)

/-- Python `sep.join(parts)`. -/
def joinWith (sep : String) (l : List String) : String :=
  ⟨sepJoin sep.data (l.map String.data)⟩

/-- Does `sub` occur as a contiguous substring of `l` (Python `in`)? -/
def containsSubAux (sub : List Char) : List Char → Bool
  | [] => sub.isEmpty
  | c :: cs => sub.isPrefixOf (c :: cs) || containsSubAux sub cs

/-- Python `sub in s` on strings. -/
def strContainsSub (sub s : String) : Bool := containsSubAux sub.data s.data

/-! ### Generic insertion-ordered dictionaries (Python `dict`) -/

/-- `m[k] = v` on an insertion-ordered association list: overwrite the
(first) binding if the key is present, else append it. Builds from `[]`,
this keeps keys unique, exactly like a Python `dict`. -/
def dictUpd {α β : Type} [BEq α] : List (α × β) → α → β → List (α × β)
  | [], k, v => [(k, v)]
  | p :: rest, k, v =>
    if p.1 == k then (k, v) :: rest else p :: dictUpd rest k v

/-- Dictionary lookup: value of the first binding of `k`, if any. -/
def dictFind {α β : Type} [BEq α] : List (α × β) → α → Option β
  | [], _ => none
  | p :: rest, k => if p.1 == k then some p.2 else dictFind rest k

/-! ### `config.py` constants -/

def VIDEO_EXTENSIONS : List String := [".mp4", ".mov", ".m4v", ".MP4", ".MOV"]

def LRF_EXTENSION : String := ".lrf"

def DB_FILENAME : String := "broll_catalog.db"

def NUM_KEYFRAMES : ℕ := 4

/-! ### `scanner.py` -/

def SKIP_DIRS : List String :=
  [".broll_thumbs", ".Spotlight-V100", ".fseventsd", ".Trashes",
   ".DocumentRevisions-V100", "__pycache__", ".git"]

/-- `scanner._should_skip_dir`. -/
def should_skip_dir (d : String) : Bool := SKIP_DIRS.contains d || strStarts "." d

/-- `scanner.compute_file_hash`: md5 over first chunk, plus last chunk when
the file is strictly larger than two chunks, plus the decimal size string.
The digest is modelled by the byte stream fed to md5 (size-string
characters appended as their code points). -/
def compute_file_hash (content : List ℕ) (chunkSize : ℕ := 65536) : List ℕ :=
  content.take chunkSize
    ++ (if chunkSize * 2 < content.length then
          content.drop (content.length - chunkSize)
        else [])
    ++ (toString content.length).data.map Char.toNat

/-- Python `pathlib.PurePath.suffix`: `name[i:]` for the last dot index `i`
 when `0 < i < len(name) - 1`, else the empty string. -/
def pathSuffix (name : String) : String :=
  match name.data.reverse.findIdx? (fun c => c == '.') with
  | none => ""
  | some j =>
    let i := name.data.length - 1 - j
    if 0 < i ∧ i < name.data.length - 1 then ⟨name.data.drop i⟩ else ""

/-- Python `pathlib.PurePath.stem`: the name minus its suffix. -/
def pathStem (name : String) : String :=
  ⟨name.data.take (name.data.length - (pathSuffix name).data.length)⟩

/-- `scanner._is_video_file`. -/
def is_video_file (name : String) : Bool :=
  (VIDEO_EXTENSIONS.map lowerStr).contains (lowerStr (pathSuffix name))

/-- `scanner._is_lrf_file`. -/
def is_lrf_file (name : String) : Bool :=
  lowerStr (pathSuffix name) == lowerStr LRF_EXTENSION

/-- `scanner.detect_source_device`. `dirParts` are the directory components
of the file's path below the scan root (the root's own components are
outside the model). -/
def detect_source_device (dirParts : List String) (name : String) : String :=
  let stem := upperStr (pathStem name)
  if strStarts "DJI_" stem then "dji_pocket3"
  else if strStarts "IMG_" stem || strStarts "RPREPLAY" stem then "iphone"
  else
    let parts := (dirParts ++ [name]).map upperStr
    if parts.any (fun p => strContainsSub "DJI" p) then "dji_pocket3"
    else if parts.any (fun p => strContainsSub "DCIM" p) then "iphone"
    else "unknown"

/-- A file on the scanned drive. `readable = false` models a file whose
open/read raises `OSError` during hashing. -/
structure SFile where
  name : String
  content : List ℕ
  readable : Bool
deriving DecidableEq

/-- A directory of the scanned tree: its component path below the root and
its plain files. The list order models the (sorted) `os.walk` order. -/
structure SDir where
  path : List String
  files : List SFile
deriving DecidableEq

/-- A drive tree is its directories in `os.walk` order. -/
abbrev Tree := List SDir

/-- A directory is entered iff no component on the way down is pruned. -/
def visibleDir (p : List String) : Bool := p.all (fun d => !should_skip_dir d)

/-- `str(path.relative_to(root))`. -/
def relPath (dir : List String) (name : String) : String :=
  joinWith "/" (dir ++ [name])

def filePathOf (d : SDir) (f : SFile) : String := relPath d.path f.name

/-- `scanner._build_lrf_map`: stem ↦ LRF path over the visible tree
(paths are modelled root-relative; the constant root prefix is dropped). -/
def build_lrf_map (tree : Tree) : List (String × String) :=
  tree.foldl
    (fun m d =>
      if visibleDir d.path then
        d.files.foldl
          (fun m f =>
            if strStarts "._" f.name then m
            else if is_lrf_file f.name then dictUpd m (pathStem f.name) (filePathOf d f)
            else m)
          m
      else m)
    []

/-- The `(dirpath, file)` pairs visited by the second `os.walk` pass. -/
def walkFiles (tree : Tree) : List (List String × SFile) :=
  (tree.filter (fun d => visibleDir d.path)).flatMap
    (fun d => d.files.map (fun f => (d.path, f)))

/-- One element of `scan_drive`'s result list (the `new_files` dicts). -/
structure ScanResult where
  absolute_path : String
  file_path : String
  file_name : String
  file_size : ℕ
  file_hash : List ℕ
  source_device : String
  lrf_path : Option String
deriving DecidableEq

/-- The per-file body of `scan_drive`'s walk loop. -/
def scanFile (lrfMap : List (String × String)) (existing : List (String × List ℕ))
    (force : Bool) (dir : List String) (f : SFile) : Option ScanResult :=
  if !is_video_file f.name then none
  else if strStarts "._" f.name then none
  else if f.name == DB_FILENAME then none
  else if !f.readable then none
  else
    let h := compute_file_hash f.content
    let rel := relPath dir f.name
    if !force && (dictFind existing rel == some h) then none
    else
      some { absolute_path := rel, file_path := rel, file_name := f.name,
             file_size := f.content.length, file_hash := h,
             source_device := detect_source_device dir f.name,
             lrf_path := dictFind lrfMap (pathStem f.name) }

/-- `scanner.scan_drive` (absolute paths are modelled root-relative; the
root prefix is a constant shared by every path). -/
def scan_drive (tree : Tree) (existing : List (String × List ℕ)) (force : Bool) :
    List ScanResult :=
  (walkFiles tree).filterMap
    (fun pf => scanFile (build_lrf_map tree) existing force pf.1 pf.2)

/-- `Database.get_all_file_hashes` after cataloging `results` on top of
`existing`: each emitted `(file_path, file_hash)` pair is recorded. -/
def catalogHashes (existing : List (String × List ℕ)) (results : List ScanResult) :
    List (String × List ℕ) :=
  results.foldl (fun m r => dictUpd m r.file_path r.file_hash) existing

/-! ### `frames.py` -/

/-- A probe that yielded `None` or a duration `< 0.5` is treated as
unknown (`frames.extract_keyframes`, the two `duration is None or
duration < 0.5` guards). -/
def usableDur : Option ℚ → Bool
  | some v => decide ((1 : ℚ)/2 ≤ v)
  | none => false

/-- Which ffprobe invocation a duration probe used: container-level
(`get_video_duration`) or stream-level (`_get_stream_duration`). -/
inductive ProbeKind where
  | container
  | stream
deriving DecidableEq

/-- The duration-discovery chain of `frames.extract_keyframes`
(lines 81–90), with an explicit log of the probes performed, in order.
`fmtProbe`/`strmProbe` are the external ffprobe collaborators. -/
def discover_duration (fmtProbe strmProbe : String → Option ℚ)
    (lrf_path : Option String) (absolute_path : String) :
    List (String × ProbeKind) × Option ℚ :=
  let src0 := lrf_path.getD absolute_path
  let d1 := fmtProbe src0
  if usableDur d1 then ([(src0, .container)], d1)
  else
    let d2 := fmtProbe absolute_path
    if usableDur d2 then
      ([(src0, .container), (absolute_path, .container)], d2)
    else
      ([(src0, .container), (absolute_path, .container), (absolute_path, .stream)],
       strmProbe absolute_path)

/-- The evenly spaced timestamps `duration * (i + 1) / (num_frames + 1)`
for `i` in `0 .. num_frames - 1` (`frames.extract_keyframes`, line 97). -/
def evenTimestamps (D : ℚ) (n : ℕ) : List ℚ :=
  (List.range n).map (fun (i : ℕ) => D * ((i : ℚ) + 1) / ((n : ℚ) + 1))

/-- The fixed fallback offsets tried when no usable duration was found. -/
def FALLBACK_TIMESTAMPS : List ℚ := [1/2, 3, 8, 15, 30]

/-- The timestamps the sampler aims at, by discovered duration: the evenly
spaced list behind `if duration and duration >= 0.5`, else the fixed
fallback list (tried with early stop; the early-stop interaction with the
extractor is not needed by the claims). -/
def sampling_timestamps (d : Option ℚ) (numFrames : ℕ) : List ℚ :=
  match d with
  | some D => if (1 : ℚ)/2 ≤ D then evenTimestamps D numFrames else FALLBACK_TIMESTAMPS
  | none => FALLBACK_TIMESTAMPS

/-! ### Python values and the video-info dict -/

/-- Python values stored in the pipeline's video-info dict and in catalog
rows. -/
inductive Val where
  | null
  | s (v : String)
  | n (v : Int)
  | q (v : ℚ)
  | strs (v : List String)
  | emb (v : List ℚ)
  | bytes (v : List ℕ)
deriving DecidableEq

/-- A Python dict with string keys. -/
abbrev Dict := List (String × Val)

/-- Python truthiness of a value. -/
def truthy : Val → Bool
  | .null => false
  | .s v => !(v == "")
  | .n v => !(v == 0)
  | .q v => !(v == 0)
  | .strs v => !v.isEmpty
  | .emb v => !v.isEmpty
  | .bytes v => !v.isEmpty

/-- `video.get(k)`: `None` when absent. -/
def dGet (vi : Dict) (k : String) : Val := (dictFind vi k).getD .null

/-- `video[k]`: raises `KeyError` when absent. -/
def dGetE (vi : Dict) (k : String) : Except String Val :=
  match dictFind vi k with
  | some v => .ok v
  | none => .error k

def dSet (vi : Dict) (k : String) (v : Val) : Dict := dictUpd vi k v

/-- Python `dict.update`. -/
def dMerge (vi : Dict) (upd : Dict) : Dict :=
  upd.foldl (fun m p => dSet m p.1 p.2) vi

/-- Python `k in dict`. -/
def hasKey (vi : Dict) (k : String) : Bool := (dictFind vi k).isSome

/-! ### `embeddings.py` -/

/-- `embeddings.build_searchable_text`. -/
def build_searchable_text (video : Dict) : String :=
  let p1 : List String :=
    match dGet video "scene_description" with
    | .s d => if d = "" then [] else [d]
    | _ => []
  let p2 : List String :=
    match dGet video "tags" with
    | .strs ts => [joinWith " " ts]
    | .s t => [t]
    | _ => []
  let p3 : List String :=
    match dGet video "mood" with
    | .s m => if m = "" ∨ m = "unknown" then [] else ["mood: " ++ m]
    | _ => []
  let p4 : List String :=
    match dGet video "camera_movement" with
    | .s m => if m = "" ∨ m = "unknown" then [] else ["camera: " ++ m]
    | _ => []
  let p5 : List String :=
    match dGet video "time_of_day" with
    | .s t => if t = "" ∨ t = "unknown" then [] else ["time: " ++ t]
    | _ => []
  let p6 : List String :=
    match dGet video "gps_location_name" with
    | .s l => if l = "" then [] else ["location: " ++ l]
    | _ => []
  let p7 : List String :=
    match dGet video "source_device" with
    | .s d =>
      if d = "dji_pocket3" then ["gimbal camera"]
      else if d = "iphone" then ["smartphone camera"]
      else []
    | _ => []
  joinWith " | " (p1 ++ p2 ++ p3 ++ p4 ++ p5 ++ p6 ++ p7)

/-- `embeddings.generate_embedding`. `ollamaEmbed` is the external Ollama
collaborator returning the response's `embeddings` field (or raising). -/
def generate_embedding (ollamaEmbed : String → Except Unit (List (List ℚ)))
    (text : String) : Except Unit (List ℚ) :=
  if strTrim text = "" then .error ()
  else
    match ollamaEmbed (strTrim text) with
    | .error e => .error e
    | .ok embs =>
      match embs with
      | [] => .error ()
      | e0 :: _ => if e0 = [] then .error () else .ok e0

/-! ### `db.py`: catalog store -/

/-- The persisted store: the `videos` table (rowid, column dict) and the
`videos_vec` table (rowid, embedding vector). -/
structure DbState where
  videos : List (ℕ × Dict)
  vecs : List (ℕ × List ℚ)
deriving DecidableEq

/-- The error sentinel written by the pipeline's failure path. -/
def ERROR_SENTINEL : String :=
  "ERROR: Could not process video - file may be corrupted or incomplete"

/-- The named-parameter dict built inside `Database.insert_video`
(db.py lines 271–315). The `video["relative_path"]`, `video["file_name"]`
and `video["file_hash"]` subscripts raise `KeyError` when the key is
absent; every other column uses `video.get`. -/
def insertRowDict (video : Dict) : Except String Dict := do
  let fp ← dGetE video "relative_path"
  let fn ← dGetE video "file_name"
  let fh ← dGetE video "file_hash"
  .ok [("file_path", fp), ("file_name", fn), ("file_size", dGet video "file_size"),
       ("file_hash", fh), ("source_device", dGet video "source_device"),
       ("lrf_path", dGet video "lrf_path"),
       ("duration_seconds", dGet video "duration_seconds"),
       ("resolution", dGet video "resolution"), ("width", dGet video "width"),
       ("height", dGet video "height"), ("fps", dGet video "fps"),
       ("codec", dGet video "codec"), ("creation_date", dGet video "creation_date"),
       ("gps_latitude", dGet video "gps_latitude"),
       ("gps_longitude", dGet video "gps_longitude"),
       ("gps_location_name", dGet video "gps_location_name"),
       ("scene_description", dGet video "scene_description"),
       ("tags", dGet video "tags"), ("mood", dGet video "mood"),
       ("camera_movement", dGet video "camera_movement"),
       ("time_of_day", dGet video "time_of_day"),
       ("thumbnail_path", dGet video "thumbnail_path"),
       ("processed_at", dGet video "processed_at")]

/-- `Database.insert_video`: build the row (possibly raising `KeyError`),
respect the `UNIQUE` constraint on `file_path`, append the row with the
next rowid, and add the embedding row when `video.get("embedding")` is
truthy. Returns the new state and rowid, or the raised error. -/
def insert_video (st : DbState) (video : Dict) : Except String (DbState × ℕ) :=
  match insertRowDict video with
  | .error e => .error e
  | .ok row =>
    if st.videos.any (fun r => dGet r.2 "file_path" == dGet row "file_path") then
      .error "UNIQUE constraint failed: videos.file_path"
    else
      let vid := st.videos.length + 1
      let emb := dGet video "embedding"
      let newVecs :=
        match emb with
        | .emb e => if truthy (.emb e) then [(vid, e)] else []
        | _ => []
      .ok (⟨st.videos ++ [(vid, row)], st.vecs ++ newVecs⟩, vid)

/-! ### `cli.py`: the per-file ingestion pipeline -/

/-- Outcomes of the external collaborators for one file: metadata
extraction (`extract_all_metadata`), frame sampling (`extract_keyframes`,
returning the frames and the thumbnail path it records), vision analysis
(`analyze_frames`, which never raises), and embedding generation keyed by
the text submitted. -/
structure Collab where
  metadata : Except Unit Dict
  keyframes : Except Unit (List (List ℕ) × Option String)
  analyze : List (List ℕ) → Dict
  embed : String → Except Unit (List ℚ)

/-- The wall clock is an external collaborator; its reading is modelled by
a fixed value. -/
def nowTimestamp : Val := .s "2026-01-01T00:00:00+00:00"

/-- The analysis keys nulled by `--scan-only` mode and by the failure
path. -/
def nullAnalysisKeys : List String :=
  ["scene_description", "tags", "mood", "camera_movement", "time_of_day",
   "thumbnail_path"]

def setNulls (vi : Dict) (ks : List String) : Dict :=
  ks.foldl (fun m k => dSet m k .null) vi

/-- The video dict after metadata merge, thumbnail recording and analysis
merge (`cli.process` steps 1–3 plus `extract_keyframes`'s
`thumbnail_path` write). -/
def analyzedRecord (c : Collab) (vi0 md : Dict)
    (kf : List (List ℕ) × Option String) : Dict :=
  dMerge
    (match kf.2 with
     | some t => dSet (dMerge vi0 md) "thumbnail_path" (.s t)
     | none => dMerge vi0 md)
    (c.analyze kf.1)

/-- The `try`-block body of `cli.process`'s per-file loop (lines 105–138),
up to but excluding persistence. On an exception, returns the video dict
as mutated so far (Python mutates `video_info` in place). -/
def prepare_video (c : Collab) (scanOnly : Bool) (vi0 : Dict) : Except Dict Dict :=
  match c.metadata with
  | .error _ => .error vi0
  | .ok md =>
    if scanOnly then
      .ok (dSet (setNulls (dMerge vi0 md) nullAnalysisKeys) "processed_at"
        nowTimestamp)
    else
      match c.keyframes with
      | .error _ => .error (dMerge vi0 md)
      | .ok kf =>
        let vi := analyzedRecord c vi0 md kf
        let searchText := build_searchable_text vi
        if strTrim searchText = "" then .ok (dSet vi "processed_at" nowTimestamp)
        else
          match c.embed searchText with
          | .error _ => .error vi
          | .ok e =>
            .ok (dSet (dSet vi "embedding" (.emb e)) "processed_at" nowTimestamp)

/-- The mutation performed by the exception handler of `cli.process`
(lines 146–153) before its second `insert_video` attempt. -/
def errorRecord (vi : Dict) : Dict :=
  dSet (dSet (dSet (dSet (dSet (dSet (dSet vi
    "scene_description" (.s ERROR_SENTINEL))
    "tags" .null) "mood" .null) "camera_movement" .null) "time_of_day" .null)
    "thumbnail_path" .null) "processed_at" nowTimestamp

/-- One iteration of `cli.process`'s loop for one admitted file: prepare,
persist; on any exception, write the degraded record, swallowing a second
failure (`except Exception: pass`). Returns the store and whether the file
counted as processed. -/
def process_one (c : Collab) (scanOnly : Bool) (st : DbState) (vi0 : Dict) :
    DbState × Bool :=
  match prepare_video c scanOnly vi0 with
  | .ok vi =>
    match insert_video st vi with
    | .ok r => (r.1, true)
    | .error _ =>
      match insert_video st (errorRecord vi) with
      | .ok r => (r.1, false)
      | .error _ => (st, false)
  | .error fv =>
    match insert_video st (errorRecord fv) with
    | .ok r => (r.1, false)
    | .error _ => (st, false)

/-- The `video_info` dict as built by `scan_drive` (scanner.py lines
175–185): exactly these seven keys. -/
def scanResultDict (r : ScanResult) : Dict :=
  [("absolute_path", .s r.absolute_path), ("file_path", .s r.file_path),
   ("file_name", .s r.file_name), ("file_size", .n r.file_size),
   ("file_hash", .bytes r.file_hash), ("source_device", .s r.source_device),
   ("lrf_path", match r.lrf_path with | some p => .s p | none => .null)]

/-! ### `search.py` -/

def RRF_K : ℕ := 60

/-- A row of the `videos` table as returned to search. -/
structure VideoRow where
  id : ℕ
  fields : Dict
deriving DecidableEq

/-- `Database.get_videos_by_ids`: `SELECT` the rows whose id is in the
list (in table order), build an id-keyed lookup dict, then emit the rows
in input order, silently dropping ids without a row. -/
def get_videos_by_ids (store : List VideoRow) (video_ids : List ℕ) :
    List VideoRow :=
  if video_ids = [] then []
  else
    let rows := store.filter (fun r => video_ids.contains r.id)
    let lookup := rows.foldl (fun m r => dictUpd m r.id r) ([] : List (ℕ × VideoRow))
    video_ids.filterMap (fun vid => dictFind lookup vid)

/-- `Database.search_fts`: run the `MATCH` query; any exception from the
FTS5 engine (`dbFts ... = none`) is caught and yields `[]`. The result
pairs are `(video_id, rank)`. -/
def search_fts (dbFts : String → ℕ → Option (List (ℕ × ℚ))) (query : String)
    (limit : ℕ) : List (ℕ × ℚ) :=
  (dbFts query limit).getD []

/-- `search._fts_search`: try the raw query; if it produced nothing, and
the query has more than one whitespace-delimited term, retry once with
each term quoted and OR-combined. -/
def fts_search (dbFts : String → ℕ → Option (List (ℕ × ℚ))) (query : String)
    (limit : ℕ) : List (ℕ × ℚ) :=
  let results := search_fts dbFts query limit
  if results ≠ [] then results
  else
    let terms := splitWs query
    if 1 < terms.length then
      let quoted :=
        joinWith " OR "
          ((terms.filter (fun t => strTrim t ≠ "")).map (fun t => "\"" ++ t ++ "\""))
      search_fts dbFts quoted limit
    else results

/-- `search._vector_search`: embed the query and search the vector index;
any exception (embedding failure or index failure) yields `[]`. The
result pairs are `(video_id, distance)`. -/
def vector_search (vecExec : List ℚ → ℕ → Option (List (ℕ × ℚ)))
    (ollamaEmbed : String → Except Unit (List (List ℚ))) (query : String)
    (limit : ℕ) : List (ℕ × ℚ) :=
  match generate_embedding ollamaEmbed query with
  | .error _ => []
  | .ok e => (vecExec e limit).getD []

/-- One RRF contribution: `scores[vid] = scores.get(vid, 0.0) +
w * (1.0 / (RRF_K + rank + 1))` on the insertion-ordered dict. -/
def rrfStep (w : ℚ) (scores : List (ℕ × ℚ)) (rank : ℕ) (vid : ℕ) :
    List (ℕ × ℚ) :=
  dictUpd scores vid
    ((dictFind scores vid).getD 0 + w * (1 / ((RRF_K : ℚ) + rank + 1)))

/-- Accumulate one ranked candidate list into the score dict. -/
def rrfFold (w : ℚ) (results : List ℕ) (scores : List (ℕ × ℚ)) :
    List (ℕ × ℚ) :=
  results.enum.foldl (fun sc p => rrfStep w sc p.1 p.2) scores

/-- The fused score dict of `hybrid_search` (lines 51–59). -/
def fusedScores (ftsIds vecIds : List ℕ) (fts_weight vec_weight : ℚ) :
    List (ℕ × ℚ) :=
  rrfFold vec_weight vecIds (rrfFold fts_weight ftsIds [])

/-- `scores[vid]` (0 when absent; `hybrid_search` only looks up ids that
are present). -/
def scoreOf (scores : List (ℕ × ℚ)) (vid : ℕ) : ℚ :=
  (dictFind scores vid).getD 0

/-- Stable insertion of one entry into a descending-by-score list: the new
entry goes before the first entry with a score `≤` its own. -/
def insertDesc (x : ℕ × ℚ) : List (ℕ × ℚ) → List (ℕ × ℚ)
  | [] => [x]
  | y :: ys => if x.2 < y.2 then y :: insertDesc x ys else x :: y :: ys

/-- Stable descending sort by score, modelling Python's stable
`sorted(..., key=lambda vid: scores[vid], reverse=True)` (equal scores
keep dict insertion order). -/
def sortScoresDesc : List (ℕ × ℚ) → List (ℕ × ℚ)
  | [] => []
  | x :: xs => insertDesc x (sortScoresDesc xs)

/-- The truncated, score-ranked id list of `hybrid_search` (line 65). -/
def ranked_ids (scores : List (ℕ × ℚ)) (limit : ℕ) : List ℕ :=
  ((sortScoresDesc scores).map Prod.fst).take limit

/-- Python `round(x, 6)` (round half to even; floats modelled as exact
rationals). -/
def roundHalfEven (x : ℚ) : ℤ :=
  let f := ⌊x⌋
  let r := x - f
  if r < 1/2 then f
  else if 1/2 < r then f + 1
  else if Even f then f else f + 1

def round6 (x : ℚ) : ℚ := (roundHalfEven (x * 1000000) : ℚ) / 1000000

/-- A fused search result: the catalog row plus score and provenance
(`search_score`, `in_fts`, `in_vec`). -/
structure SearchHit where
  video : VideoRow
  search_score : ℚ
  in_fts : Bool
  in_vec : Bool
deriving DecidableEq

/-- `search.hybrid_search`: fetch `3 * limit` candidates from each index,
fuse by RRF, rank, truncate, fetch rows, annotate. -/
def hybrid_search (dbFts : String → ℕ → Option (List (ℕ × ℚ)))
    (vecExec : List ℚ → ℕ → Option (List (ℕ × ℚ)))
    (ollamaEmbed : String → Except Unit (List (List ℚ)))
    (store : List VideoRow) (query : String) (limit : ℕ)
    (fts_weight vec_weight : ℚ) : List SearchHit :=
  let candidate_pool := limit * 3
  let fts_results := fts_search dbFts query candidate_pool
  let vec_results := vector_search vecExec ollamaEmbed query candidate_pool
  let scores :=
    fusedScores (fts_results.map Prod.fst) (vec_results.map Prod.fst)
      fts_weight vec_weight
  if scores = [] then []
  else
    let videos := get_videos_by_ids store (ranked_ids scores limit)
    videos.map
      (fun v =>
        { video := v, search_score := round6 (scoreOf scores v.id),
          in_fts := fts_results.any (fun r => r.1 == v.id),
          in_vec := vec_results.any (fun r => r.1 == v.id) })

/-! ### The FTS5 lexical index, modelled from the spec

SQLite's FTS5 engine is an external collaborator, not repository code.
Modelled from the spec: the lexical index holds, per entry id, the set of
indexed terms of its text columns; the query parser accepts a quoted atom
(`"…"`) or a plain alphanumeric atom, combined either by explicit `OR`
(match any) or by juxtaposition (implicit AND, match all); any other
query — special characters in a plain atom, unbalanced quotes, a trailing
`OR` — is rejected with a syntax error, which `Database.search_fts`
catches. Matches are returned in index order; the `rank` value comes from
the engine's bm25 and is modelled as an unspecified constant `0` (no claim
depends on rank values). -/

structure FtsDoc where
  id : ℕ
  terms : List String
deriving DecidableEq

/-- Strip one level of quotes: `"inner"` with no interior quote. -/
def unquoteAtom (t : List Char) : Option (List Char) :=
  match t with
  | '"' :: rest =>
    match rest.reverse with
    | '"' :: innerRev =>
      if innerRev.reverse.contains '"' then none else some innerRev.reverse
    | _ => none
  | _ => none

def isAlnumCh (c : Char) : Bool := c.isAlpha || c.isDigit

/-- Parse one query atom: a quoted term, or a plain alphanumeric term. -/
def parseAtom (t : List Char) : Option (List Char) :=
  match unquoteAtom t with
  | some inner => some inner
  | none => if t ≠ [] ∧ t.all isAlnumCh then some t else none

/-- Parse a strict `atom OR atom OR …` alternation. -/
def parseAtoms : List (List Char) → Option (List (List Char))
  | [] => none
  | [t] => (parseAtom t).map (fun a => [a])
  | t :: orTok :: rest =>
    if orTok = ['O', 'R'] then
      match parseAtom t, parseAtoms rest with
      | some a, some rest' => some (a :: rest')
      | _, _ => none
    else none

/-- Parse a juxtaposed (implicit-AND) atom sequence. -/
def parseAllAtoms : List (List Char) → Option (List (List Char))
  | [] => some []
  | t :: rest =>
    match parseAtom t, parseAllAtoms rest with
    | some a, some r => some (a :: r)
    | _, _ => none

/-- The modelled FTS5 query parser: `none` means the engine raises a
query-syntax error. `true` marks an OR query (match any term), `false` an
implicit-AND query (match all terms). -/
def ftsParse (q : String) : Option (Bool × List String) :=
  let tokens := splitWsAux q.data []
  if tokens.contains ['O', 'R'] then
    (parseAtoms tokens).map (fun l => (true, l.map String.mk))
  else
    match tokens with
    | [] => none
    | _ => (parseAllAtoms tokens).map (fun l => (false, l.map String.mk))

/-- Does a document match a parsed query? -/
def docMatch (d : FtsDoc) (pq : Bool × List String) : Bool :=
  if pq.1 then pq.2.any (fun t => d.terms.contains t)
  else pq.2.all (fun t => d.terms.contains t)

/-- Modelled from the spec: the raw FTS5 `MATCH` executor over a lexical
index (`none` = syntax error raised to `Database.search_fts`). -/
def db_search_fts_model (docs : List FtsDoc) (q : String) (limit : ℕ) :
    Option (List (ℕ × ℚ)) :=
  match ftsParse q with
  | none => none
  | some pq =>
    some (((docs.filter (fun d => docMatch d pq)).map (fun d => (d.id, (0 : ℚ)))).take limit)

end Broll

namespace Broll

/-! ### Auxiliary definitions used by the claim theorems -/

/-- A representative scan-work-list element: every stage below is given a
fully successful collaborator outcome. -/
def c1ScanResult : ScanResult :=
  { absolute_path := "DJI_0001.MP4", file_path := "DJI_0001.MP4",
    file_name := "DJI_0001.MP4", file_size := 3,
    file_hash := compute_file_hash [7, 8, 9], source_device := "dji_pocket3",
    lrf_path := none }

/-- Collaborators that all succeed. -/
def c1Collab : Collab :=
  { metadata := .ok [("duration_seconds", .q 10), ("resolution", .s "1920x1080")],
    keyframes := .ok ([[1]], some "thumb.jpg"),
    analyze := fun _ =>
      [("scene_description", .s "a beach"), ("tags", .strs ["beach", "waves"]),
       ("mood", .s "calm"), ("camera_movement", .s "static"),
       ("time_of_day", .s "midday")],
    embed := fun _ => .ok [1, 0] }

/-- A concrete ffprobe collaborator for the C5 witness: the preview
reports 10 seconds. -/
def c5Fmt : String → Option ℚ := fun p => if p = "clip.LRF" then some 10 else some 20

/-- The total RRF mass a candidate list gives an id: one `1/(K + r + 1)`
term per 0-based rank `r` at which the id occurs. -/
def rrfSum (l : List ℕ) (vid : ℕ) : ℚ :=
  ((l.enum.filter (fun p => p.2 == vid)).map
    (fun p => 1 / ((RRF_K : ℚ) + p.1 + 1))).sum

/-- A walked file that `scan_drive` recognizes and can read: a readable
video file that is not a resource fork and not the catalog DB file. -/
def eligibleFile (f : SFile) : Bool :=
  is_video_file f.name && !strStarts "._" f.name && !(f.name == DB_FILENAME)
    && f.readable

/-- The record `scan_drive` appends for a file it emits. -/
def mkScanResult (lrfMap : List (String × String)) (dir : List String)
    (f : SFile) : ScanResult :=
  { absolute_path := relPath dir f.name, file_path := relPath dir f.name,
    file_name := f.name, file_size := f.content.length,
    file_hash := compute_file_hash f.content,
    source_device := detect_source_device dir f.name,
    lrf_path := dictFind lrfMap (pathStem f.name) }

/-- Collaborators for the C8 witness: metadata and frames succeed, the
vision model returns nothing usable, and the embedding collaborator would
fail if it were ever consulted. -/
def c8Collab : Collab :=
  { metadata := .ok [("duration_seconds", .q 10)],
    keyframes := .ok ([[1]], none),
    analyze := fun _ => [],
    embed := fun _ => .error () }

/-- The token stream of a quoted-OR query: atoms separated by `OR`
tokens. -/
def orInterleave : List (List Char) → List (List Char)
  | [] => []
  | [a] => [a]
  | a :: b :: rest => a :: ['O', 'R'] :: orInterleave (b :: rest)

/-! ## Claim theorems -/

/-! ### C10: the partial fingerprint is a function of head, tail and size -/

/-- Claim C10: for files larger than twice the 65536-byte chunk, the
fingerprint is a function of only the first 65536 bytes, the last 65536
bytes and the decimal byte size — two such files agreeing on those three
inputs get equal fingerprints, so the Change Detector skips a file whose
modification is confined to the interior bytes whenever its path is
already known under the old fingerprint. -/
theorem c10_interior_change_invisible (c1 c2 : List ℕ)
    (hlen1 : 65536 * 2 < c1.length) (hlen2 : 65536 * 2 < c2.length)
    (hfirst : c1.take 65536 = c2.take 65536)
    (hlast : c1.drop (c1.length - 65536) = c2.drop (c2.length - 65536))
    (hsize : c1.length = c2.length) :
    compute_file_hash c1 = compute_file_hash c2
  ∧ ∀ (lrfMap : List (String × String)) (existing : List (String × List ℕ))
      (dir : List String) (name : String),
      is_video_file name = true →
      strStarts "._" name = false →
      (name == DB_FILENAME) = false →
      dictFind existing (relPath dir name) = some (compute_file_hash c1) →
      scanFile lrfMap existing false dir ⟨name, c2, true⟩ = none := by
  have hhash : compute_file_hash c1 = compute_file_hash c2 := by
    simp only [compute_file_hash, if_pos hlen1, if_pos hlen2]
    rw [hfirst, hlast, hsize]
  refine ⟨hhash, fun lrfMap existing dir name hv hdot hdb hknown => ?_⟩
  have hfound : (dictFind existing (relPath dir name)
      == some (compute_file_hash c2)) = true := by
    rw [hknown, hhash]
    exact beq_self_eq_true _
  simp [scanFile, hv, hdot, hdb, hfound]

/-- Witness for C10 at a concrete 131073-byte file. -/
theorem c10_witness :
    compute_file_hash (List.replicate 131073 0)
      = compute_file_hash (List.replicate 131073 0)
  ∧ ∀ (lrfMap : List (String × String)) (existing : List (String × List ℕ))
      (dir : List String) (name : String),
      is_video_file name = true →
      strStarts "._" name = false →
      (name == DB_FILENAME) = false →
      dictFind existing (relPath dir name)
        = some (compute_file_hash (List.replicate 131073 0)) →
      scanFile lrfMap existing false dir
        ⟨name, List.replicate 131073 0, true⟩ = none :=
  c10_interior_change_invisible (List.replicate 131073 0) (List.replicate 131073 0)
    (by rw [List.length_replicate]; norm_num)
    (by rw [List.length_replicate]; norm_num)
    rfl rfl rfl

/-! ### C1: the pipeline never persists an admitted file -/

/-- Claim C1 fails on the code: `Database.insert_video` subscripts
`video["relative_path"]`, a key neither `scan_drive` (which emits
`file_path`) nor any pipeline stage ever sets, so both `insert_video`
attempts raise `KeyError` and the per-file run leaves the store unchanged:
after one pipeline run on a fresh store — with every stage succeeding —
the file's relative path occurs zero times in the catalog, not exactly
once. -/
theorem c1_pipeline_never_persists :
    process_one c1Collab false ⟨[], []⟩ (scanResultDict c1ScanResult)
      = (⟨[], []⟩, false)
  ∧ ((process_one c1Collab false ⟨[], []⟩ (scanResultDict c1ScanResult)).1.videos.countP
        (fun r => dGet r.2 "file_path" == Val.s "DJI_0001.MP4")) = 0
  ∧ insert_video ⟨[], []⟩ (scanResultDict c1ScanResult) = .error "relative_path" :=
  ⟨by decide, by decide, by rfl⟩

/-! ### C4: evenly spaced keyframe timestamps -/

/-- Claim C4: for a determined duration `D ≥ 0.5` and `frameCount = n ≥ 1`
the sampler takes the evenly spaced path and aims at exactly the `n`
timestamps `D*(i+1)/(n+1)` for `i` in `0..n-1`, in strictly ascending
order, each strictly between `0` and `D`; for `frameCount = 4` these are
`D/5, 2D/5, 3D/5, 4D/5`. -/
theorem c4_even_sampling (D : ℚ) (n : ℕ) (hD : (1 : ℚ)/2 ≤ D) (hn : 1 ≤ n) :
    sampling_timestamps (some D) n = evenTimestamps D n
  ∧ (evenTimestamps D n).length = n
  ∧ (∀ i, i < n → (evenTimestamps D n)[i]? = some (D * (i + 1) / (n + 1)))
  ∧ List.Chain' (· < ·) (evenTimestamps D n)
  ∧ (∀ t ∈ evenTimestamps D n, 0 < t ∧ t < D)
  ∧ evenTimestamps D 4 = [D * 1 / 5, D * 2 / 5, D * 3 / 5, D * 4 / 5] := by
  have hD0 : (0 : ℚ) < D := lt_of_lt_of_le (by norm_num) hD
  have hn1 : (0 : ℚ) < (n : ℚ) + 1 := by positivity
  refine ⟨?_, ?_, ?_, ?_, ?_, ?_⟩
  · simp only [sampling_timestamps]
    rw [if_pos hD]
  · rw [evenTimestamps, List.length_map, List.length_range]
  · intro i hi
    have hr : (List.range n)[i]? = some i := by simp [List.getElem?_range, hi]
    rw [evenTimestamps, List.getElem?_map, hr]
    rfl
  · rw [evenTimestamps, List.chain'_map]
    cases n with
    | zero => exact List.chain'_nil
    | succ m =>
      refine (List.chain'_range_succ _ m).mpr (fun k hk => ?_)
      have hden : (0 : ℚ) < (((m + 1 : ℕ)) : ℚ) + 1 := by positivity
      rw [div_lt_div_iff_of_pos_right hden]
      refine mul_lt_mul_of_pos_left ?_ hD0
      push_cast
      linarith
  · intro t ht
    rw [evenTimestamps, List.mem_map] at ht
    obtain ⟨i, hi, rfl⟩ := ht
    rw [List.mem_range] at hi
    refine ⟨by positivity, ?_⟩
    rw [div_lt_iff₀ hn1]
    have hcast : ((i : ℚ) + 1) < ((n : ℚ) + 1) := by
      have : (i : ℚ) < (n : ℚ) := by exact_mod_cast hi
      linarith
    exact mul_lt_mul_of_pos_left hcast hD0
  · norm_num [evenTimestamps, List.range_succ]

/-- Witness for C4 at `D = 7`, `frameCount = 4`. -/
theorem c4_witness :
    (1 : ℚ)/2 ≤ 7
  ∧ sampling_timestamps (some 7) 4 = [7 * 1 / 5, 7 * 2 / 5, 7 * 3 / 5, 7 * 4 / 5] := by
  have h := c4_even_sampling 7 4 (by norm_num) (by norm_num)
  exact ⟨by norm_num, by rw [h.1, h.2.2.2.2.2]⟩

/-! ### C5: the duration-discovery fallback chain -/

/-- Claim C5: the discovery chain probes the preview first when one
exists; a failed or implausibly small (`< 0.5`) probe falls through to
the original's container-level duration and only then to the stream-level
probe, first usable value winning; and a duration below `0.5` at any step
is never used for evenly spaced sampling. -/
theorem c5_duration_fallback_chain (fmtProbe strmProbe : String → Option ℚ)
    (lrf_path : Option String) (abs_path : String) :
    (∀ p, lrf_path = some p →
      (discover_duration fmtProbe strmProbe lrf_path abs_path).1.head?
        = some (p, ProbeKind.container))
  ∧ (usableDur (fmtProbe (lrf_path.getD abs_path)) = true →
      discover_duration fmtProbe strmProbe lrf_path abs_path
        = ([(lrf_path.getD abs_path, .container)], fmtProbe (lrf_path.getD abs_path)))
  ∧ (usableDur (fmtProbe (lrf_path.getD abs_path)) = false →
     usableDur (fmtProbe abs_path) = true →
      discover_duration fmtProbe strmProbe lrf_path abs_path
        = ([(lrf_path.getD abs_path, .container), (abs_path, .container)],
           fmtProbe abs_path))
  ∧ (usableDur (fmtProbe (lrf_path.getD abs_path)) = false →
     usableDur (fmtProbe abs_path) = false →
      discover_duration fmtProbe strmProbe lrf_path abs_path
        = ([(lrf_path.getD abs_path, .container), (abs_path, .container),
            (abs_path, .stream)], strmProbe abs_path))
  ∧ (∀ n, sampling_timestamps
        (discover_duration fmtProbe strmProbe lrf_path abs_path).2 n
          = FALLBACK_TIMESTAMPS
      ∨ ∃ D, (discover_duration fmtProbe strmProbe lrf_path abs_path).2 = some D
          ∧ (1 : ℚ)/2 ≤ D
          ∧ sampling_timestamps
              (discover_duration fmtProbe strmProbe lrf_path abs_path).2 n
              = evenTimestamps D n) := by
  refine ⟨?_, ?_, ?_, ?_, ?_⟩
  · intro p hp
    subst hp
    simp only [discover_duration, Option.getD_some]
    split
    · rfl
    · split
      · rfl
      · rfl
  · intro h1
    simp [discover_duration, h1]
  · intro h1 h2
    simp [discover_duration, h1, h2]
  · intro h1 h2
    simp [discover_duration, h1, h2]
  · intro n
    cases hdur : (discover_duration fmtProbe strmProbe lrf_path abs_path).2 with
    | none => left; simp [sampling_timestamps]
    | some D =>
      by_cases hD : (1 : ℚ)/2 ≤ D
      · right
        refine ⟨D, rfl, hD, ?_⟩
        simp only [sampling_timestamps]
        rw [if_pos hD]
      · left
        simp only [sampling_timestamps]
        rw [if_neg hD]

/-- Witness for C5: with an existing preview whose container probe is
usable, discovery stops at the preview. -/
theorem c5_witness :
    discover_duration c5Fmt (fun _ => none) (some "clip.LRF") "clip.MP4"
      = ([("clip.LRF", .container)], some 10) := by
  have h := (c5_duration_fallback_chain c5Fmt (fun _ => none)
    (some "clip.LRF") "clip.MP4").2.1
  have hfmt : c5Fmt ((some "clip.LRF").getD "clip.MP4") = some 10 := by
    simp [c5Fmt]
  rw [hfmt] at h
  exact h (by simp only [usableDur, decide_eq_true_eq]; norm_num)

/-! ### Association-list dictionary lemmas -/

theorem dictFind_dictUpd {α β : Type} [BEq α] [LawfulBEq α]
    (m : List (α × β)) (k i : α) (v : β) :
    dictFind (dictUpd m k v) i = if k == i then some v else dictFind m i := by
  induction m with
  | nil =>
    by_cases hki : (k == i) = true <;> simp [dictUpd, dictFind, hki]
  | cons p rest ih =>
    by_cases hpk : (p.1 == k) = true
    · have hpk' : p.1 = k := eq_of_beq hpk
      by_cases hki : (k == i) = true
      · simp [dictUpd, dictFind, hpk, hki]
      · have hpi : (p.1 == i) = false := by
          rw [Bool.eq_false_iff]
          intro h
          exact hki (by rw [← hpk']; exact h)
        simp [dictUpd, dictFind, hpk, hki, hpi]
    · by_cases hpi : (p.1 == i) = true
      · have hki : (k == i) = false := by
          rw [Bool.eq_false_iff]
          intro h
          have hp1 : p.1 = k := by rw [eq_of_beq hpi, eq_of_beq h]
          have hpk2 : ¬ p.1 = k := by simpa using hpk
          exact hpk2 hp1
        simp [dictUpd, dictFind, hpk, hpi, hki]
      · simp [dictUpd, dictFind, hpk, hpi, ih]

theorem dictFind_append {α β : Type} [BEq α] (m m' : List (α × β)) (i : α) :
    dictFind (m ++ m') i = (dictFind m i).or (dictFind m' i) := by
  induction m with
  | nil => simp [dictFind]
  | cons p rest ih =>
    by_cases hp : (p.1 == i) = true <;> simp [dictFind, hp, ih]

/-- Every binding of an updated dictionary is an old binding or the new
pair. -/
theorem mem_dictUpd {α β : Type} [BEq α] (m : List (α × β)) (k : α) (v : β)
    (p : α × β) (hp : p ∈ dictUpd m k v) : p ∈ m ∨ p = (k, v) := by
  induction m with
  | nil =>
    simp [dictUpd] at hp
    exact Or.inr hp
  | cons q rest ih =>
    by_cases hq : (q.1 == k) = true
    · simp only [dictUpd, if_pos hq] at hp
      rcases List.mem_cons.mp hp with h | h
      · exact Or.inr h
      · exact Or.inl (List.mem_cons_of_mem _ h)
    · simp only [dictUpd, if_neg hq] at hp
      rcases List.mem_cons.mp hp with h | h
      · exact Or.inl (h ▸ List.mem_cons_self _ _)
      · rcases ih h with h' | h'
        · exact Or.inl (List.mem_cons_of_mem _ h')
        · exact Or.inr h'

/-! ### C9: bulk fetch preserves input order, drops unknown ids -/

theorem dictFind_nil {α β : Type} [BEq α] (i : α) :
    dictFind ([] : List (α × β)) i = none := rfl

theorem lookup_fold_find (rows : List VideoRow) (m : List (ℕ × VideoRow)) (i : ℕ)
    (hnd : (rows.map VideoRow.id).Nodup)
    (hm : ∀ r ∈ rows, dictFind m r.id = none) :
    dictFind (rows.foldl (fun acc r => dictUpd acc r.id r) m) i
      = (dictFind m i).or (rows.find? (fun r => r.id == i)) := by
  induction rows generalizing m with
  | nil => simp [List.find?]
  | cons r rest ih =>
    obtain ⟨hnotin, hndrest⟩ : r.id ∉ rest.map VideoRow.id ∧ (rest.map VideoRow.id).Nodup := by
      simpa [List.nodup_cons] using hnd
    have hm' : ∀ r' ∈ rest, dictFind (dictUpd m r.id r) r'.id = none := by
      intro r' hr'
      rw [dictFind_dictUpd]
      have hne : ¬ (r.id == r'.id) = true := by
        simp only [beq_iff_eq]
        intro heq
        exact hnotin (heq ▸ List.mem_map_of_mem _ hr')
      rw [if_neg hne]
      exact hm r' (List.mem_cons_of_mem _ hr')
    rw [List.foldl_cons, ih _ hndrest hm', dictFind_dictUpd]
    by_cases hri : (r.id == i) = true
    · rw [if_pos hri]
      have hmi : dictFind m i = none := by
        have := hm r (List.mem_cons_self _ _)
        rwa [eq_of_beq hri] at this
      rw [hmi]
      simp [List.find?_cons, hri]
    · rw [if_neg hri]
      simp only [List.find?_cons, hri]

theorem find?_filter_absorb (l : List VideoRow) (q : VideoRow → Bool) (i : ℕ)
    (himp : ∀ r, (r.id == i) = true → q r = true) :
    (l.filter q).find? (fun r => r.id == i) = l.find? (fun r => r.id == i) := by
  induction l with
  | nil => rfl
  | cons r rest ih =>
    by_cases hq : q r = true
    · rw [List.filter_cons_of_pos hq]
      by_cases hri : (r.id == i) = true
      · simp [List.find?_cons, hri]
      · simp only [List.find?_cons, hri, ih]
    · have hri : (r.id == i) = false := by
        rw [Bool.eq_false_iff]
        intro h
        exact hq (himp r h)
      rw [List.filter_cons_of_neg (by simpa using hq)]
      simp only [List.find?_cons, hri, ih]

/-- Claim C9: the bulk fetch returns, for each input id in input order,
the stored row with that id, silently omitting ids with no row, and the
empty list for the empty input. (Ids are unique in the store: `id` is the
table's `INTEGER PRIMARY KEY`.) -/
theorem c9_get_many_by_ids (store : List VideoRow) (ids : List ℕ)
    (hnd : (store.map VideoRow.id).Nodup) :
    get_videos_by_ids store [] = []
  ∧ get_videos_by_ids store ids
      = ids.filterMap (fun i => store.find? (fun r => r.id == i))
  ∧ ∀ v ∈ get_videos_by_ids store ids, v ∈ store ∧ v.id ∈ ids := by
  have hmain : get_videos_by_ids store ids
      = ids.filterMap (fun i => store.find? (fun r => r.id == i)) := by
    by_cases hids : ids = []
    · subst hids
      rfl
    · rw [get_videos_by_ids, if_neg hids]
      have hndrows : ((store.filter (fun r => ids.contains r.id)).map VideoRow.id).Nodup :=
        List.Nodup.sublist (List.Sublist.map VideoRow.id (List.filter_sublist store)) hnd
      refine List.filterMap_congr (fun i hi => ?_)
      rw [lookup_fold_find (store.filter (fun r => ids.contains r.id)) [] i hndrows
          (fun r _ => rfl),
        dictFind_nil, Option.none_or]
      refine find?_filter_absorb store _ i (fun r hr => ?_)
      rw [eq_of_beq hr]
      simpa using hi
  refine ⟨rfl, hmain, fun v hv => ?_⟩
  rw [hmain] at hv
  rw [List.mem_filterMap] at hv
  obtain ⟨i, hi, hfind⟩ := hv
  refine ⟨List.mem_of_find?_eq_some hfind, ?_⟩
  have := List.find?_some hfind
  rwa [eq_of_beq this]

/-- Witness for C9 on a concrete store and id list (with a missing id and
out-of-table order). -/
theorem c9_witness :
    get_videos_by_ids [⟨1, []⟩, ⟨2, []⟩] [2, 5, 1]
      = [2, 5, 1].filterMap
          (fun i => List.find? (fun r => r.id == i) [⟨1, []⟩, ⟨2, []⟩]) :=
  (c9_get_many_by_ids [⟨1, []⟩, ⟨2, []⟩] [2, 5, 1] (by decide)).2.1

/-! ### C2: Reciprocal Rank Fusion -/

theorem scoreOf_nil (i : ℕ) : scoreOf [] i = 0 := rfl

theorem scoreOf_rrfStep (w : ℚ) (sc : List (ℕ × ℚ)) (r vid i : ℕ) :
    scoreOf (rrfStep w sc r vid) i
      = scoreOf sc i
        + (if vid == i then w * (1 / ((RRF_K : ℚ) + r + 1)) else 0) := by
  rw [rrfStep, scoreOf, dictFind_dictUpd]
  by_cases h : (vid == i) = true
  · rw [if_pos h, if_pos h, Option.getD_some, scoreOf, eq_of_beq h]
  · rw [if_neg h, if_neg h, scoreOf, add_zero]

theorem scoreOf_rrf_pairs (w : ℚ) (pairs : List (ℕ × ℕ)) (sc : List (ℕ × ℚ))
    (i : ℕ) :
    scoreOf (pairs.foldl (fun acc p => rrfStep w acc p.1 p.2) sc) i
      = scoreOf sc i
        + w * (((pairs.filter (fun p => p.2 == i)).map
            (fun p => 1 / ((RRF_K : ℚ) + p.1 + 1))).sum) := by
  induction pairs generalizing sc with
  | nil => simp
  | cons p rest ih =>
    rw [List.foldl_cons, ih, scoreOf_rrfStep]
    by_cases h : (p.2 == i) = true
    · simp only [if_pos h, List.filter_cons, h, if_true, List.map_cons, List.sum_cons]
      ring
    · simp only [if_neg h, List.filter_cons, h, if_false, add_zero, Bool.false_eq_true]

theorem scoreOf_rrfFold (w : ℚ) (l : List ℕ) (sc : List (ℕ × ℚ)) (i : ℕ) :
    scoreOf (rrfFold w l sc) i = scoreOf sc i + w * rrfSum l i :=
  scoreOf_rrf_pairs w l.enum sc i

theorem mem_insertDesc (x z : ℕ × ℚ) (l : List (ℕ × ℚ)) :
    z ∈ insertDesc x l ↔ z = x ∨ z ∈ l := by
  induction l with
  | nil => simp [insertDesc]
  | cons y ys ih =>
    by_cases h : x.2 < y.2
    · simp only [insertDesc, if_pos h, List.mem_cons, ih]
      tauto
    · simp only [insertDesc, if_neg h, List.mem_cons]

theorem pairwise_insertDesc (x : ℕ × ℚ) (l : List (ℕ × ℚ))
    (h : l.Pairwise (fun a b => b.2 ≤ a.2)) :
    (insertDesc x l).Pairwise (fun a b => b.2 ≤ a.2) := by
  induction l with
  | nil => simp [insertDesc]
  | cons y ys ih =>
    rw [List.pairwise_cons] at h
    by_cases hlt : x.2 < y.2
    · rw [insertDesc, if_pos hlt]
      rw [List.pairwise_cons]
      refine ⟨?_, ih h.2⟩
      intro z hz
      rcases (mem_insertDesc x z ys).mp hz with rfl | hz'
      · exact le_of_lt hlt
      · exact h.1 z hz'
    · rw [insertDesc, if_neg hlt]
      rw [List.pairwise_cons]
      refine ⟨?_, List.Pairwise.cons h.1 h.2⟩
      intro z hz
      rcases List.mem_cons.mp hz with rfl | hz'
      · exact le_of_not_lt hlt
      · exact le_trans (h.1 z hz') (le_of_not_lt hlt)

theorem pairwise_sortScoresDesc (l : List (ℕ × ℚ)) :
    (sortScoresDesc l).Pairwise (fun a b => b.2 ≤ a.2) := by
  induction l with
  | nil => exact List.Pairwise.nil
  | cons x xs ih => exact pairwise_insertDesc x (sortScoresDesc xs) ih

theorem mem_sortScoresDesc (z : ℕ × ℚ) (l : List (ℕ × ℚ)) :
    z ∈ sortScoresDesc l ↔ z ∈ l := by
  induction l with
  | nil => simp [sortScoresDesc]
  | cons x xs ih =>
    rw [sortScoresDesc, mem_insertDesc, ih, List.mem_cons]

/-- Keys of an updated dictionary stay duplicate-free. -/
theorem keysNodup_dictUpd {α β : Type} [BEq α] [LawfulBEq α]
    (m : List (α × β)) (k : α) (v : β) (h : (m.map Prod.fst).Nodup) :
    ((dictUpd m k v).map Prod.fst).Nodup := by
  induction m with
  | nil => simp [dictUpd]
  | cons p rest ih =>
    rw [List.map_cons, List.nodup_cons] at h
    by_cases hpk : (p.1 == k) = true
    · rw [dictUpd, if_pos hpk, List.map_cons, List.nodup_cons]
      exact ⟨(eq_of_beq hpk) ▸ h.1, h.2⟩
    · rw [dictUpd, if_neg hpk, List.map_cons, List.nodup_cons]
      refine ⟨?_, ih h.2⟩
      intro hmem
      rw [List.mem_map] at hmem
      obtain ⟨q, hq, hq1⟩ := hmem
      rcases mem_dictUpd rest k v q hq with h' | h'
      · exact h.1 (hq1 ▸ List.mem_map_of_mem _ h')
      · rw [h'] at hq1
        have hpk2 : ¬ p.1 = k := by simpa using hpk
        exact hpk2 hq1.symm

theorem keysNodup_rrf_pairs (w : ℚ) (pairs : List (ℕ × ℕ)) (sc : List (ℕ × ℚ))
    (h : (sc.map Prod.fst).Nodup) :
    (((pairs.foldl (fun acc p => rrfStep w acc p.1 p.2) sc)).map Prod.fst).Nodup := by
  induction pairs generalizing sc with
  | nil => exact h
  | cons p rest ih =>
    rw [List.foldl_cons]
    exact ih _ (keysNodup_dictUpd _ _ _ h)

/-- In a duplicate-free score dict, the looked-up score of a binding is its
stored value. -/
theorem scoreOf_mem (sc : List (ℕ × ℚ)) (hnd : (sc.map Prod.fst).Nodup)
    (p : ℕ × ℚ) (hp : p ∈ sc) : scoreOf sc p.1 = p.2 := by
  induction sc with
  | nil => cases hp
  | cons q rest ih =>
    rw [List.map_cons, List.nodup_cons] at hnd
    rcases List.mem_cons.mp hp with rfl | hp'
    · rw [scoreOf, dictFind, if_pos (beq_self_eq_true _), Option.getD_some]
    · have hq1 : ¬ (q.1 == p.1) = true := by
        simp only [beq_iff_eq]
        intro he
        exact hnd.1 (he ▸ List.mem_map_of_mem _ hp')
      rw [scoreOf, dictFind, if_neg hq1]
      exact ih hnd.2 hp'

/-- Claim C2: each candidate at 0-based rank `r` in a source list
contributes `weight * 1/(K + r + 1)` to its id's total, contributions from
both lists add, the returned ids are sorted by total score descending, and
on the concrete scenario (lexical `[A,B,C] = [1,2,3]`, vector
`[B,D] = [2,4]`, equal weights) the fused scores are `A = 1/61`,
`B = 1/62 + 1/61`, `C = 1/63`, `D = 1/62` and the fused order is
`B, A, D, C = [2, 1, 4, 3]`. -/
theorem c2_rrf_fusion :
    (∀ (ftsIds vecIds : List ℕ) (wf wv : ℚ) (vid : ℕ),
       scoreOf (fusedScores ftsIds vecIds wf wv) vid
         = wf * rrfSum ftsIds vid + wv * rrfSum vecIds vid)
  ∧ (∀ (ftsIds vecIds : List ℕ) (wf wv : ℚ) (limit : ℕ),
       (ranked_ids (fusedScores ftsIds vecIds wf wv) limit).Pairwise
         (fun i j => scoreOf (fusedScores ftsIds vecIds wf wv) j
            ≤ scoreOf (fusedScores ftsIds vecIds wf wv) i))
  ∧ scoreOf (fusedScores [1, 2, 3] [2, 4] 1 1) 1 = 1/61
  ∧ scoreOf (fusedScores [1, 2, 3] [2, 4] 1 1) 2 = 1/62 + 1/61
  ∧ scoreOf (fusedScores [1, 2, 3] [2, 4] 1 1) 3 = 1/63
  ∧ scoreOf (fusedScores [1, 2, 3] [2, 4] 1 1) 4 = 1/62
  ∧ ranked_ids (fusedScores [1, 2, 3] [2, 4] 1 1) 10 = [2, 1, 4, 3] := by
  have hscore : ∀ (ftsIds vecIds : List ℕ) (wf wv : ℚ) (vid : ℕ),
      scoreOf (fusedScores ftsIds vecIds wf wv) vid
        = wf * rrfSum ftsIds vid + wv * rrfSum vecIds vid := by
    intro ftsIds vecIds wf wv vid
    rw [fusedScores, scoreOf_rrfFold, scoreOf_rrfFold, scoreOf_nil, zero_add]
  have hnodup : ∀ (ftsIds vecIds : List ℕ) (wf wv : ℚ),
      ((fusedScores ftsIds vecIds wf wv).map Prod.fst).Nodup := by
    intro ftsIds vecIds wf wv
    exact keysNodup_rrf_pairs _ _ _ (keysNodup_rrf_pairs _ _ _ (by simp))
  refine ⟨hscore, ?_, ?_, ?_, ?_, ?_, ?_⟩
  · intro ftsIds vecIds wf wv limit
    set sc := fusedScores ftsIds vecIds wf wv with hsc
    have hsorted := pairwise_sortScoresDesc sc
    have hmapped : ((sortScoresDesc sc).map Prod.fst).Pairwise
        (fun i j => scoreOf sc j ≤ scoreOf sc i) := by
      rw [List.pairwise_map]
      refine List.Pairwise.imp_of_mem ?_ hsorted
      intro a b ha hb hle
      rw [scoreOf_mem sc (hnodup _ _ _ _) a ((mem_sortScoresDesc a sc).mp ha),
        scoreOf_mem sc (hnodup _ _ _ _) b ((mem_sortScoresDesc b sc).mp hb)]
      exact hle
    exact hmapped.sublist (List.take_sublist _ _)
  · norm_num [fusedScores, rrfFold, rrfStep, List.enum, List.enumFrom, scoreOf,
      dictFind, dictUpd, RRF_K]
  · norm_num [fusedScores, rrfFold, rrfStep, List.enum, List.enumFrom, scoreOf,
      dictFind, dictUpd, RRF_K]
  · norm_num [fusedScores, rrfFold, rrfStep, List.enum, List.enumFrom, scoreOf,
      dictFind, dictUpd, RRF_K]
  · norm_num [fusedScores, rrfFold, rrfStep, List.enum, List.enumFrom, scoreOf,
      dictFind, dictUpd, RRF_K]
  · norm_num [ranked_ids, fusedScores, rrfFold, rrfStep, List.enum, List.enumFrom,
      scoreOf, dictFind, dictUpd, RRF_K, sortScoresDesc, insertDesc]

/-! ### C7: query-embedding failure degrades to lexical-only results -/

theorem dictFind_mem {α β : Type} [BEq α] [LawfulBEq α]
    (m : List (α × β)) (i : α) (v : β) (h : dictFind m i = some v) :
    (i, v) ∈ m := by
  induction m with
  | nil => cases h
  | cons p rest ih =>
    by_cases hp : (p.1 == i) = true
    · rw [dictFind, if_pos hp] at h
      have hv : v = p.2 := by
        injection h with h'
        exact h'.symm
      have hi : i = p.1 := (eq_of_beq hp).symm
      rw [hv, hi]
      exact List.mem_cons_self _ _
    · rw [dictFind, if_neg hp] at h
      exact List.mem_cons_of_mem _ (ih h)

theorem foldl_dictUpd_mem (rows : List VideoRow) (m : List (ℕ × VideoRow))
    (p : ℕ × VideoRow)
    (hp : p ∈ rows.foldl (fun acc r => dictUpd acc r.id r) m) :
    p ∈ m ∨ ∃ r ∈ rows, p = (r.id, r) := by
  induction rows generalizing m with
  | nil => exact Or.inl hp
  | cons r rest ih =>
    rw [List.foldl_cons] at hp
    rcases ih _ hp with h' | h'
    · rcases mem_dictUpd m r.id r p h' with h'' | h''
      · exact Or.inl h''
      · exact Or.inr ⟨r, List.mem_cons_self _ _, h''⟩
    · obtain ⟨r', hr', hpr⟩ := h'
      exact Or.inr ⟨r', List.mem_cons_of_mem _ hr', hpr⟩

/-- Rows returned by the bulk fetch come from the store and carry a
requested id (no uniqueness assumption needed). -/
theorem mem_get_videos_by_ids (store : List VideoRow) (ids : List ℕ)
    (v : VideoRow) (hv : v ∈ get_videos_by_ids store ids) :
    v ∈ store ∧ v.id ∈ ids := by
  by_cases hids : ids = []
  · subst hids
    cases hv
  · rw [get_videos_by_ids, if_neg hids, List.mem_filterMap] at hv
    obtain ⟨i, hi, hfind⟩ := hv
    have hmem := dictFind_mem _ _ _ hfind
    rcases foldl_dictUpd_mem _ _ _ hmem with h | h
    · cases h
    · obtain ⟨r, hr, heq⟩ := h
      have h1 : i = r.id := congrArg Prod.fst heq
      have h2 : v = r := congrArg Prod.snd heq
      subst h2
      rw [List.mem_filter] at hr
      exact ⟨hr.1, h1 ▸ hi⟩

/-- A key of the fused score dict comes from the seed dict or from one of
the accumulated candidate lists. -/
theorem keys_rrf_pairs (w : ℚ) (pairs : List (ℕ × ℕ)) (sc : List (ℕ × ℚ))
    (p : ℕ × ℚ)
    (hp : p ∈ pairs.foldl (fun acc q => rrfStep w acc q.1 q.2) sc) :
    p.1 ∈ sc.map Prod.fst ∨ p.1 ∈ pairs.map Prod.snd := by
  induction pairs generalizing sc with
  | nil => exact Or.inl (List.mem_map_of_mem _ hp)
  | cons q rest ih =>
    rw [List.foldl_cons] at hp
    rcases ih _ hp with h' | h'
    · rw [List.mem_map] at h'
      obtain ⟨p', hp', hfst⟩ := h'
      rcases mem_dictUpd sc q.2 _ p' hp' with h'' | h''
      · exact Or.inl (hfst ▸ List.mem_map_of_mem _ h'')
      · refine Or.inr ?_
        rw [List.map_cons, ← hfst, h'']
        exact List.mem_cons_self _ _
    · exact Or.inr (List.mem_cons_of_mem _ h')

theorem enum_map_snd (l : List ℕ) : l.enum.map Prod.snd = l :=
  List.enum_map_snd l

theorem dictUpd_append_of_absent {α β : Type} [BEq α] (m : List (α × β))
    (k : α) (v : β) (h : dictFind m k = none) : dictUpd m k v = m ++ [(k, v)] := by
  induction m with
  | nil => rfl
  | cons p rest ih =>
    rw [dictFind] at h
    by_cases hp : (p.1 == k) = true
    · rw [if_pos hp] at h
      cases h
    · rw [if_neg hp] at h
      rw [dictUpd, if_neg hp, ih h, List.cons_append]

/-- Accumulating candidates with fresh ids appends one binding per
candidate, in rank order, each worth `w * 1/(K + rank + 1)`. -/
theorem rrf_pairs_of_absent (w : ℚ) (pairs : List (ℕ × ℕ)) (m : List (ℕ × ℚ))
    (hnd : (pairs.map Prod.snd).Nodup)
    (habs : ∀ p ∈ pairs, dictFind m p.2 = none) :
    pairs.foldl (fun acc p => rrfStep w acc p.1 p.2) m
      = m ++ pairs.map (fun p => (p.2, w * (1 / ((RRF_K : ℚ) + p.1 + 1)))) := by
  induction pairs generalizing m with
  | nil => simp
  | cons p rest ih =>
    rw [List.foldl_cons, List.map_cons]
    obtain ⟨hnotin, hndrest⟩ : p.2 ∉ rest.map Prod.snd ∧ (rest.map Prod.snd).Nodup := by
      simpa [List.nodup_cons] using hnd
    have habsp := habs p (List.mem_cons_self _ _)
    have hstep : rrfStep w m p.1 p.2
        = m ++ [(p.2, w * (1 / ((RRF_K : ℚ) + p.1 + 1)))] := by
      rw [rrfStep, habsp]
      rw [show (Option.getD (none : Option ℚ) 0) = 0 from rfl, zero_add]
      exact dictUpd_append_of_absent m p.2 _ habsp
    rw [hstep]
    have habs' : ∀ q ∈ rest,
        dictFind (m ++ [(p.2, w * (1 / ((RRF_K : ℚ) + p.1 + 1)))]) q.2 = none := by
      intro q hq
      rw [dictFind_append, habs q (List.mem_cons_of_mem _ hq), Option.none_or]
      rw [dictFind, if_neg ?_]
      · rfl
      · simp only [beq_iff_eq]
        intro he
        exact hnotin (he ▸ List.mem_map_of_mem _ hq)
    rw [ih _ hndrest habs', List.append_assoc]
    rfl

theorem enumFrom_fst_ge {α : Type} (l : List α) (n : ℕ) :
    ∀ p ∈ List.enumFrom n l, n ≤ p.1 := by
  induction l generalizing n with
  | nil =>
    intro p hp
    cases hp
  | cons x xs ih =>
    intro p hp
    rw [List.enumFrom] at hp
    rcases List.mem_cons.mp hp with rfl | hp'
    · exact le_refl _
    · exact le_trans (Nat.le_succ n) (ih (n + 1) p hp')

theorem pairwise_enumFrom_lt {α : Type} (l : List α) (n : ℕ) :
    (List.enumFrom n l).Pairwise (fun p q => p.1 < q.1) := by
  induction l generalizing n with
  | nil => exact List.Pairwise.nil
  | cons x xs ih =>
    rw [List.enumFrom, List.pairwise_cons]
    refine ⟨?_, ih (n + 1)⟩
    intro q hq
    have := enumFrom_fst_ge xs (n + 1) q hq
    omega

/-- The stable descending sort leaves an already-descending list
unchanged. -/
theorem sortScoresDesc_fixpoint (l : List (ℕ × ℚ))
    (h : l.Pairwise (fun a b => b.2 ≤ a.2)) : sortScoresDesc l = l := by
  induction l with
  | nil => rfl
  | cons x xs ih =>
    rw [List.pairwise_cons] at h
    rw [sortScoresDesc, ih h.2]
    cases xs with
    | nil => rfl
    | cons y ys =>
      rw [insertDesc, if_neg]
      rw [not_lt]
      exact h.1 y (List.mem_cons_self _ _)

/-- With no vector candidates, the fused score dict is exactly the
lexical candidates in rank order. -/
theorem fts_only_scores (ftsIds : List ℕ) (wf wv : ℚ) (hnd : ftsIds.Nodup) :
    fusedScores ftsIds [] wf wv
      = ftsIds.enum.map
          (fun p => (p.2, wf * (1 / ((RRF_K : ℚ) + p.1 + 1)))) := by
  rw [fusedScores]
  rw [show rrfFold wv [] (rrfFold wf ftsIds []) = rrfFold wf ftsIds [] from rfl]
  rw [rrfFold]
  rw [rrf_pairs_of_absent wf ftsIds.enum []
    (by rw [enum_map_snd]; exact hnd) (fun p _ => rfl)]
  rw [List.nil_append]

/-- With no vector candidates and a nonnegative lexical weight, ranking
by fused score returns the lexical candidates in their lexical order,
truncated to the limit. -/
theorem ranked_fts_only (ftsIds : List ℕ) (wf wv : ℚ) (limit : ℕ)
    (hnd : ftsIds.Nodup) (hwf : 0 ≤ wf) :
    ranked_ids (fusedScores ftsIds [] wf wv) limit = ftsIds.take limit := by
  rw [ranked_ids, fts_only_scores ftsIds wf wv hnd]
  have hsorted : (ftsIds.enum.map
      (fun p => (p.2, wf * (1 / ((RRF_K : ℚ) + p.1 + 1))))).Pairwise
        (fun a b => b.2 ≤ a.2) := by
    rw [List.pairwise_map]
    refine List.Pairwise.imp ?_ (pairwise_enumFrom_lt ftsIds 0)
    intro p q hpq
    have hpos : (0 : ℚ) < (RRF_K : ℚ) + p.1 + 1 := by positivity
    have hle : (RRF_K : ℚ) + p.1 + 1 ≤ (RRF_K : ℚ) + q.1 + 1 := by
      have : (p.1 : ℚ) ≤ (q.1 : ℚ) := by exact_mod_cast le_of_lt hpq
      linarith
    exact mul_le_mul_of_nonneg_left (one_div_le_one_div_of_le hpos hle) hwf
  rw [sortScoresDesc_fixpoint _ hsorted, List.map_map]
  rw [show (Prod.fst ∘ fun p : ℕ × ℕ => (p.2, wf * (1 / ((RRF_K : ℚ) + p.1 + 1))))
      = Prod.snd from funext (fun p => rfl)]
  rw [enum_map_snd]

theorem map_video_annotate (l : List VideoRow) (f2 : VideoRow → ℚ)
    (f3 f4 : VideoRow → Bool) :
    ((l.map (fun v =>
        ({ video := v, search_score := f2 v, in_fts := f3 v, in_vec := f4 v }
            : SearchHit))).map SearchHit.video) = l := by
  rw [List.map_map]
  rw [show (SearchHit.video ∘ fun v =>
      ({ video := v, search_score := f2 v, in_fts := f3 v, in_vec := f4 v }
          : SearchHit)) = id from funext (fun v => rfl)]
  rw [List.map_id]

/-- Claim C7: when query-embedding generation fails (as it does for every
empty or whitespace-only query), the vector branch returns the empty
candidate list instead of raising, and the fused search still returns the
lexical candidates — its rows are exactly the stored rows of the top
`limit` lexical candidates, in lexical rank order — each annotated
`in_vec = false`, `in_fts = true`. (The last part assumes the lexical
index returned each id once, as a SQL row set does, and a nonnegative
lexical weight.) -/
theorem c7_vector_failure_lexical_only
    (dbFts : String → ℕ → Option (List (ℕ × ℚ)))
    (vecExec : List ℚ → ℕ → Option (List (ℕ × ℚ)))
    (ollamaEmbed : String → Except Unit (List (List ℚ)))
    (store : List VideoRow) (query : String) (limit : ℕ) (wf wv : ℚ)
    (hfail : generate_embedding ollamaEmbed query = .error ()) :
    vector_search vecExec ollamaEmbed query (limit * 3) = []
  ∧ (∀ q, strTrim q = "" → generate_embedding ollamaEmbed q = .error ())
  ∧ (∀ h ∈ hybrid_search dbFts vecExec ollamaEmbed store query limit wf wv,
      h.in_vec = false ∧ h.in_fts = true)
  ∧ (((fts_search dbFts query (limit * 3)).map Prod.fst).Nodup → 0 ≤ wf →
      (hybrid_search dbFts vecExec ollamaEmbed store query limit wf wv).map
          SearchHit.video
        = get_videos_by_ids store
            (((fts_search dbFts query (limit * 3)).map Prod.fst).take limit)) := by
  have hvec : vector_search vecExec ollamaEmbed query (limit * 3) = [] := by
    rw [vector_search, hfail]
  refine ⟨hvec, fun q hq => by rw [generate_embedding, if_pos hq], ?_, ?_⟩
  intro h hh
  rw [hybrid_search] at hh
  simp only [hvec] at hh
  by_cases hsc : fusedScores ((fts_search dbFts query (limit * 3)).map Prod.fst)
      (([] : List (ℕ × ℚ)).map Prod.fst) wf wv = []
  · rw [if_pos hsc] at hh
    cases hh
  · rw [if_neg hsc, List.mem_map] at hh
    obtain ⟨v, hv, rfl⟩ := hh
    refine ⟨by simp, ?_⟩
    have hid : v.id ∈ ranked_ids (fusedScores
        ((fts_search dbFts query (limit * 3)).map Prod.fst)
        (([] : List (ℕ × ℚ)).map Prod.fst) wf wv) limit :=
      (mem_get_videos_by_ids _ _ _ hv).2
    have hid2 : v.id ∈ ((sortScoresDesc (fusedScores
        ((fts_search dbFts query (limit * 3)).map Prod.fst)
        (([] : List (ℕ × ℚ)).map Prod.fst) wf wv)).map Prod.fst) :=
      (List.take_sublist _ _).subset hid
    rw [List.mem_map] at hid2
    obtain ⟨p, hp, hfst⟩ := hid2
    rw [mem_sortScoresDesc] at hp
    rw [fusedScores, rrfFold, rrfFold] at hp
    rcases keys_rrf_pairs _ _ _ _ hp with h1 | h1
    · rw [List.mem_map] at h1
      obtain ⟨q, hq, hq1⟩ := h1
      rcases keys_rrf_pairs _ _ _ _ hq with h2 | h2
      · simp at h2
      · rw [enum_map_snd] at h2
        rw [List.any_eq_true]
        rw [List.mem_map] at h2
        obtain ⟨r, hr, hr1⟩ := h2
        refine ⟨r, hr, ?_⟩
        rw [beq_iff_eq, hr1, hq1, hfst]
    · simp at h1
  intro hnd hwf
  rw [hybrid_search]
  simp only [hvec, List.map_nil]
  by_cases hsc : fusedScores ((fts_search dbFts query (limit * 3)).map Prod.fst)
      [] wf wv = []
  · rw [if_pos hsc]
    have hscores := fts_only_scores
      ((fts_search dbFts query (limit * 3)).map Prod.fst) wf wv hnd
    rw [hsc] at hscores
    have hnil : (fts_search dbFts query (limit * 3)).map Prod.fst = [] := by
      cases hl : (fts_search dbFts query (limit * 3)).map Prod.fst with
      | nil => rfl
      | cons a l =>
        rw [hl] at hscores
        simp at hscores
    rw [hnil]
    simp [get_videos_by_ids]
  · rw [if_neg hsc]
    rw [ranked_fts_only ((fts_search dbFts query (limit * 3)).map Prod.fst)
      wf wv limit hnd hwf]
    exact map_video_annotate _ _ _ _

/-- Witness for C7: empty query, one lexical candidate; the fused search
returns exactly that candidate's stored row. -/
theorem c7_witness :
    vector_search (fun _ _ => some ([] : List (ℕ × ℚ))) (fun _ => .error ()) "" (10 * 3) = []
  ∧ (∀ q, strTrim q = "" → generate_embedding (fun _ => .error ()) q = .error ())
  ∧ (∀ h ∈ hybrid_search (fun _ _ => some [(1, (0 : ℚ))])
        (fun _ _ => some ([] : List (ℕ × ℚ))) (fun _ => .error ())
        [⟨1, []⟩] "" 10 1 1,
      h.in_vec = false ∧ h.in_fts = true)
  ∧ (hybrid_search (fun _ _ => some [(1, (0 : ℚ))])
        (fun _ _ => some ([] : List (ℕ × ℚ))) (fun _ => .error ())
        [⟨1, []⟩] "" 10 1 1).map SearchHit.video
      = get_videos_by_ids [⟨1, []⟩]
          (((fts_search (fun _ _ => some [(1, (0 : ℚ))]) "" (10 * 3)).map
              Prod.fst).take 10) := by
  have H := c7_vector_failure_lexical_only (fun _ _ => some [(1, (0 : ℚ))])
    (fun _ _ => some ([] : List (ℕ × ℚ))) (fun _ => .error ())
    [⟨1, []⟩] "" 10 1 1 (by rfl)
  exact ⟨H.1, H.2.1, H.2.2.1, H.2.2.2 (by decide) (by norm_num)⟩

/-! ### C3: Change Detector idempotence and force semantics -/

/-- Closed form of the per-file scan step. -/
theorem scanFile_eq (lrfMap : List (String × String))
    (existing : List (String × List ℕ)) (force : Bool) (dir : List String)
    (f : SFile) :
    scanFile lrfMap existing force dir f
      = if eligibleFile f
            && !(!force && (dictFind existing (relPath dir f.name)
                  == some (compute_file_hash f.content)))
        then some (mkScanResult lrfMap dir f)
        else none := by
  rw [scanFile]
  by_cases h1 : is_video_file f.name = true
  · by_cases h2 : strStarts "._" f.name = true
    · simp [eligibleFile, h1, h2]
    · rw [Bool.not_eq_true] at h2
      by_cases h3 : (f.name == DB_FILENAME) = true
      · simp [eligibleFile, h1, h2, h3]
      · rw [Bool.not_eq_true] at h3
        by_cases h4 : f.readable = true
        · by_cases h5 : (!force && (dictFind existing (relPath dir f.name)
              == some (compute_file_hash f.content))) = true
          · simp [eligibleFile, h1, h2, h3, h4, h5, mkScanResult]
          · rw [Bool.not_eq_true] at h5
            simp [eligibleFile, h1, h2, h3, h4, h5, mkScanResult]
        · rw [Bool.not_eq_true] at h4
          simp [eligibleFile, h1, h2, h3, h4]
  · rw [Bool.not_eq_true] at h1
    simp [eligibleFile, h1]

theorem scanFile_some_fields (lrfMap : List (String × String))
    (existing : List (String × List ℕ)) (force : Bool) (dir : List String)
    (f : SFile) (r : ScanResult)
    (h : scanFile lrfMap existing force dir f = some r) :
    r.file_path = relPath dir f.name
  ∧ r.file_hash = compute_file_hash f.content := by
  rw [scanFile_eq] at h
  split at h
  · have := Option.some.inj h
    rw [← this]
    exact ⟨rfl, rfl⟩
  · cases h

theorem hashes_fold_notin (results : List ScanResult)
    (e : List (String × List ℕ)) (rel : String)
    (hnone : ∀ r ∈ results, r.file_path ≠ rel) :
    dictFind (results.foldl (fun m r => dictUpd m r.file_path r.file_hash) e) rel
      = dictFind e rel := by
  induction results generalizing e with
  | nil => rfl
  | cons r0 rest ih =>
    rw [List.foldl_cons, ih _ (fun r hr => hnone r (List.mem_cons_of_mem _ hr))]
    rw [dictFind_dictUpd, if_neg]
    simp only [beq_iff_eq]
    exact hnone r0 (List.mem_cons_self _ _)

theorem hashes_fold_in (results : List ScanResult)
    (e : List (String × List ℕ)) (rel : String) (h : List ℕ)
    (hall : ∀ r ∈ results, r.file_path = rel → r.file_hash = h)
    (hmem : ∃ r ∈ results, r.file_path = rel) :
    dictFind (results.foldl (fun m r => dictUpd m r.file_path r.file_hash) e) rel
      = some h := by
  induction results generalizing e with
  | nil =>
    obtain ⟨r, hr, _⟩ := hmem
    cases hr
  | cons r0 rest ih =>
    rw [List.foldl_cons]
    by_cases hrest : ∃ r ∈ rest, r.file_path = rel
    · exact ih _ (fun r hr => hall r (List.mem_cons_of_mem _ hr)) hrest
    · obtain ⟨r', hr', hrp⟩ := hmem
      have hr0 : r0.file_path = rel := by
        rcases List.mem_cons.mp hr' with rfl | hmem'
        · exact hrp
        · exact absurd ⟨r', hmem', hrp⟩ hrest
      have hh0 : r0.file_hash = h := hall r0 (List.mem_cons_self _ _) hr0
      rw [hashes_fold_notin rest _ rel (fun r hr hrp' => hrest ⟨r, hr, hrp'⟩)]
      rw [dictFind_dictUpd, if_pos (by simp [hr0]), hh0]

/-- Claim C3: (idempotence) re-scanning an unmodified tree with the
fingerprint map obtained by cataloging the first scan's output on top of
the previously known map yields an empty work list; (force) a forced scan
ignores the fingerprint map entirely and emits one ScanResult, carrying
the file's relative path, for every recognized readable video file of the
visible tree. The `hwf` hypothesis says distinct walked files have
distinct relative paths, which is true of every real directory tree. -/
theorem c3_scan_idempotent_and_force (tree : Tree)
    (existing : List (String × List ℕ))
    (hwf : ((walkFiles tree).map (fun pf => relPath pf.1 pf.2.name)).Nodup) :
    scan_drive tree
        (catalogHashes existing (scan_drive tree existing false)) false = []
  ∧ (∀ e1 e2, scan_drive tree e1 true = scan_drive tree e2 true)
  ∧ (scan_drive tree existing true).map ScanResult.file_path
      = (walkFiles tree).filterMap
          (fun pf => if eligibleFile pf.2 then some (relPath pf.1 pf.2.name)
                     else none) := by
  have hinj := List.inj_on_of_nodup_map hwf
  refine ⟨?_, ?_, ?_⟩
  · rw [scan_drive, List.filterMap_eq_nil_iff]
    intro pf hpf
    rw [scanFile_eq]
    by_cases he : eligibleFile pf.2 = true
    · have hfind : dictFind
          (catalogHashes existing (scan_drive tree existing false))
          (relPath pf.1 pf.2.name)
          = some (compute_file_hash pf.2.content) := by
        rw [catalogHashes]
        by_cases hskip : (dictFind existing (relPath pf.1 pf.2.name)
            == some (compute_file_hash pf.2.content)) = true
        · have hnone : ∀ r ∈ scan_drive tree existing false,
              r.file_path ≠ relPath pf.1 pf.2.name := by
            intro r hr hrp
            rw [scan_drive, List.mem_filterMap] at hr
            obtain ⟨pf', hpf', hsf⟩ := hr
            have hfields := scanFile_some_fields _ _ _ _ _ _ hsf
            have hpp : pf' = pf :=
              hinj hpf' hpf (by rw [← hfields.1, hrp])
            rw [hpp] at hsf
            rw [scanFile_eq, if_neg] at hsf
            · cases hsf
            · simp [he, hskip]
          rw [hashes_fold_notin _ _ _ hnone]
          exact eq_of_beq hskip
        · have hemit : scanFile (build_lrf_map tree) existing false pf.1 pf.2
              = some (mkScanResult (build_lrf_map tree) pf.1 pf.2) := by
            rw [scanFile_eq, if_pos]
            rw [Bool.not_eq_true] at hskip
            simp [he, hskip]
          have hmem : mkScanResult (build_lrf_map tree) pf.1 pf.2
              ∈ scan_drive tree existing false := by
            rw [scan_drive, List.mem_filterMap]
            exact ⟨pf, hpf, hemit⟩
          refine hashes_fold_in _ _ _ _ ?_ ⟨_, hmem, rfl⟩
          intro r hr hrp
          rw [scan_drive, List.mem_filterMap] at hr
          obtain ⟨pf', hpf', hsf⟩ := hr
          have hfields := scanFile_some_fields _ _ _ _ _ _ hsf
          have hpp : pf' = pf := hinj hpf' hpf (by rw [← hfields.1, hrp])
          rw [hfields.2, hpp]
      rw [if_neg]
      simp [he, hfind]
    · rw [if_neg]
      simp [he]
  · intro e1 e2
    rw [scan_drive, scan_drive]
    refine List.filterMap_congr (fun pf _ => ?_)
    rw [scanFile_eq, scanFile_eq]
    simp
  · rw [scan_drive, List.map_filterMap]
    refine List.filterMap_congr (fun pf _ => ?_)
    rw [scanFile_eq]
    by_cases he : eligibleFile pf.2 = true
    · simp [he, mkScanResult]
    · simp [he]

/-- Witness for C3 on a concrete two-file tree. -/
theorem c3_witness :
    scan_drive [⟨[], [⟨"a.mp4", [1, 2], true⟩, ⟨"b.txt", [3], true⟩]⟩]
        (catalogHashes []
          (scan_drive [⟨[], [⟨"a.mp4", [1, 2], true⟩, ⟨"b.txt", [3], true⟩]⟩]
            [] false)) false = []
  ∧ (∀ e1 e2,
      scan_drive [⟨[], [⟨"a.mp4", [1, 2], true⟩, ⟨"b.txt", [3], true⟩]⟩] e1 true
        = scan_drive [⟨[], [⟨"a.mp4", [1, 2], true⟩, ⟨"b.txt", [3], true⟩]⟩] e2 true)
  ∧ (scan_drive [⟨[], [⟨"a.mp4", [1, 2], true⟩, ⟨"b.txt", [3], true⟩]⟩] [] true).map
        ScanResult.file_path
      = (walkFiles [⟨[], [⟨"a.mp4", [1, 2], true⟩, ⟨"b.txt", [3], true⟩]⟩]).filterMap
          (fun pf => if eligibleFile pf.2 then some (relPath pf.1 pf.2.name)
                     else none) :=
  c3_scan_idempotent_and_force
    [⟨[], [⟨"a.mp4", [1, 2], true⟩, ⟨"b.txt", [3], true⟩]⟩] [] (by decide)

/-! ### C8: embedding exists iff analysis succeeded and text is non-empty -/

theorem hasKey_dSet (m : Dict) (k i : String) (v : Val) :
    hasKey (dSet m k v) i = ((k == i) || hasKey m i) := by
  rw [hasKey, dSet, dictFind_dictUpd]
  by_cases h : (k == i) = true
  · simp [h]
  · rw [Bool.not_eq_true] at h
    simp [h, hasKey]

theorem hasKey_dMerge (a b : Dict) (i : String) :
    hasKey (dMerge a b) i = (hasKey a i || hasKey b i) := by
  induction b generalizing a with
  | nil => simp [dMerge, hasKey, dictFind]
  | cons p rest ih =>
    rw [dMerge, List.foldl_cons]
    have : rest.foldl (fun m q => dSet m q.1 q.2) (dSet a p.1 p.2)
        = dMerge (dSet a p.1 p.2) rest := rfl
    rw [this, ih, hasKey_dSet]
    have hcons : hasKey (p :: rest) i = ((p.1 == i) || hasKey rest i) := by
      rw [hasKey, dictFind]
      by_cases h : (p.1 == i) = true
      · simp [h]
      · rw [Bool.not_eq_true] at h
        simp [h, hasKey]
    rw [hcons]
    cases hasKey a i <;> cases (p.1 == i) <;> simp

theorem dGet_dSet_ne (m : Dict) (k i : String) (v : Val) (h : ¬ k = i) :
    dGet (dSet m k v) i = dGet m i := by
  rw [dGet, dSet, dictFind_dictUpd, if_neg (by simpa using h), dGet]

/-- `build_searchable_text` only reads the seven descriptive keys, so
setting any other key leaves it unchanged. -/
theorem bst_ignores (m : Dict) (k : String) (v : Val)
    (h1 : ¬ k = "scene_description") (h2 : ¬ k = "tags") (h3 : ¬ k = "mood")
    (h4 : ¬ k = "camera_movement") (h5 : ¬ k = "time_of_day")
    (h6 : ¬ k = "gps_location_name") (h7 : ¬ k = "source_device") :
    build_searchable_text (dSet m k v) = build_searchable_text m := by
  rw [build_searchable_text, build_searchable_text,
    dGet_dSet_ne m k _ v h1, dGet_dSet_ne m k _ v h2, dGet_dSet_ne m k _ v h3,
    dGet_dSet_ne m k _ v h4, dGet_dSet_ne m k _ v h5, dGet_dSet_ne m k _ v h6,
    dGet_dSet_ne m k _ v h7]

/-- Claim C8: in a full (non-scan-only) run whose metadata and frame
stages succeeded, the record handed to persistence carries an embedding
iff its assembled searchable text is non-empty after trimming; empty text
skips embedding generation without raising (the outcome does not consult
the embedding collaborator at all); a scan-only run and the failure path
never attach an embedding. -/
theorem c8_embedding_iff_searchable_text (c : Collab) (vi0 md : Dict)
    (kf : List (List ℕ) × Option String)
    (hmd : c.metadata = .ok md)
    (hkf : c.keyframes = .ok kf)
    (h0 : hasKey vi0 "embedding" = false)
    (hmd0 : hasKey md "embedding" = false)
    (han0 : hasKey (c.analyze kf.1) "embedding" = false) :
    (∀ vi, prepare_video c false vi0 = .ok vi →
       (hasKey vi "embedding" = true ↔ strTrim (build_searchable_text vi) ≠ ""))
  ∧ (strTrim (build_searchable_text (analyzedRecord c vi0 md kf)) = "" →
      prepare_video c false vi0
        = .ok (dSet (analyzedRecord c vi0 md kf) "processed_at" nowTimestamp))
  ∧ (∀ vi, prepare_video c true vi0 = .ok vi → hasKey vi "embedding" = false)
  ∧ (∀ fv, prepare_video c false vi0 = .error fv →
       hasKey fv "embedding" = false) := by
  have hA : hasKey (analyzedRecord c vi0 md kf) "embedding" = false := by
    rw [analyzedRecord, hasKey_dMerge, han0, Bool.or_false]
    cases hthumb : kf.2 with
    | some t => rw [hasKey_dSet, hasKey_dMerge, h0, hmd0]; rfl
    | none => rw [hasKey_dMerge, h0, hmd0]; rfl
  have hbstA : ∀ x, build_searchable_text
      (dSet (analyzedRecord c vi0 md kf) "processed_at" x)
        = build_searchable_text (analyzedRecord c vi0 md kf) :=
    fun x => bst_ignores _ _ _ (by decide) (by decide) (by decide) (by decide)
      (by decide) (by decide) (by decide)
  have hbstE : ∀ e x, build_searchable_text
      (dSet (dSet (analyzedRecord c vi0 md kf) "embedding" (.emb e))
        "processed_at" x)
        = build_searchable_text (analyzedRecord c vi0 md kf) := by
    intro e x
    rw [bst_ignores _ _ _ (by decide) (by decide) (by decide) (by decide)
      (by decide) (by decide) (by decide),
      bst_ignores _ _ _ (by decide) (by decide) (by decide) (by decide)
      (by decide) (by decide) (by decide)]
  refine ⟨?_, ?_, ?_, ?_⟩
  · intro vi hvi
    simp only [prepare_video, hmd, hkf, Bool.false_eq_true, if_false] at hvi
    by_cases hst : strTrim (build_searchable_text (analyzedRecord c vi0 md kf)) = ""
    · rw [if_pos hst] at hvi
      injection hvi with hvi'
      rw [← hvi']
      constructor
      · intro hk
        rw [hasKey_dSet, hA] at hk
        simp at hk
      · intro hne
        rw [hbstA] at hne
        exact absurd hst hne
    · rw [if_neg hst] at hvi
      cases hembed : c.embed (build_searchable_text (analyzedRecord c vi0 md kf)) with
      | error e => rw [hembed] at hvi; cases hvi
      | ok e =>
        rw [hembed] at hvi
        injection hvi with hvi'
        rw [← hvi']
        constructor
        · intro _
          rw [hbstE]
          exact hst
        · intro _
          rw [hasKey_dSet, hasKey_dSet]
          simp
  · intro hst
    simp only [prepare_video, hmd, hkf, Bool.false_eq_true, if_false, if_pos hst]
  · intro vi hvi
    simp only [prepare_video, hmd, if_true] at hvi
    injection hvi with hvi'
    rw [← hvi', hasKey_dSet]
    have hsn : hasKey (setNulls (dMerge vi0 md) nullAnalysisKeys) "embedding"
        = false := by
      simp [setNulls, nullAnalysisKeys, hasKey_dSet, hasKey_dMerge, h0, hmd0]
    rw [hsn]
    rfl
  · intro fv hfv
    simp only [prepare_video, hmd, hkf, Bool.false_eq_true, if_false] at hfv
    by_cases hst : strTrim (build_searchable_text (analyzedRecord c vi0 md kf)) = ""
    · rw [if_pos hst] at hfv
      cases hfv
    · rw [if_neg hst] at hfv
      cases hembed : c.embed (build_searchable_text (analyzedRecord c vi0 md kf)) with
      | error e =>
        rw [hembed] at hfv
        injection hfv with hfv'
        rw [← hfv']
        exact hA
      | ok e => rw [hembed] at hfv; cases hfv

/-- Witness for C8: with empty searchable text the run still succeeds
(embedding skipped, not an error), even though the embedding collaborator
always fails. -/
theorem c8_witness :
    prepare_video c8Collab false [("file_name", Val.s "a.mp4")]
      = .ok (dSet (analyzedRecord c8Collab [("file_name", Val.s "a.mp4")]
          [("duration_seconds", Val.q 10)] ([[1]], none))
          "processed_at" nowTimestamp) :=
  (c8_embedding_iff_searchable_text c8Collab [("file_name", Val.s "a.mp4")]
    [("duration_seconds", Val.q 10)] ([[1]], none) rfl rfl
    (by decide) (by decide) (by decide)).2.1 (by decide)

/-! ### C6: the quoted-OR lexical fallback -/

theorem splitWsAux_append_word (w l acc : List Char)
    (hw : ∀ c ∈ w, c.isWhitespace = false) :
    splitWsAux (w ++ l) acc = splitWsAux l (w.reverse ++ acc) := by
  induction w generalizing acc with
  | nil => simp
  | cons c cs ih =>
    rw [List.cons_append, splitWsAux]
    rw [hw c (List.mem_cons_self _ _)]
    rw [if_neg (by simp)]
    rw [ih _ (fun c' hc' => hw c' (List.mem_cons_of_mem _ hc'))]
    simp

theorem splitWsAux_space (l acc : List Char) :
    splitWsAux (' ' :: l) acc
      = if acc = [] then splitWsAux l [] else acc.reverse :: splitWsAux l [] := by
  rw [splitWsAux, if_pos (by decide : (' '.isWhitespace) = true)]

theorem tokens_sepJoin_or (qts : List (List Char))
    (hne : ∀ t ∈ qts, t ≠ [])
    (hws : ∀ t ∈ qts, ∀ c ∈ t, c.isWhitespace = false) :
    splitWsAux (sepJoin (' ' :: 'O' :: 'R' :: [' ']) qts) [] = orInterleave qts := by
  induction qts with
  | nil => rfl
  | cons a rest ih =>
    cases rest with
    | nil =>
      rw [sepJoin, orInterleave]
      rw [show a = a ++ [] by simp]
      rw [splitWsAux_append_word _ _ _ (hws a (List.mem_cons_self _ _))]
      rw [splitWsAux]
      rw [if_neg (by simpa using hne a (List.mem_cons_self _ _))]
      simp
    | cons b rest' =>
      rw [sepJoin, orInterleave]
      have hl : a ++ (' ' :: 'O' :: 'R' :: [' ']) ++ sepJoin (' ' :: 'O' :: 'R' :: [' ']) (b :: rest')
          = a ++ (' ' :: 'O' :: 'R' :: ' ' :: sepJoin (' ' :: 'O' :: 'R' :: [' ']) (b :: rest')) := by
        simp
      rw [hl]
      rw [splitWsAux_append_word _ _ _ (hws a (List.mem_cons_self _ _))]
      rw [splitWsAux_space]
      rw [if_neg (by simpa using hne a (List.mem_cons_self _ _))]
      have hOR : ('O' :: 'R' :: ' ' :: sepJoin (' ' :: 'O' :: 'R' :: [' ']) (b :: rest'))
          = ['O', 'R'] ++ (' ' :: sepJoin (' ' :: 'O' :: 'R' :: [' ']) (b :: rest')) := rfl
      rw [hOR]
      rw [splitWsAux_append_word ['O', 'R'] _ _ (by decide)]
      rw [splitWsAux_space]
      rw [if_neg (by decide)]
      rw [ih (fun t ht => hne t (List.mem_cons_of_mem _ ht))
          (fun t ht => hws t (List.mem_cons_of_mem _ ht))]
      simp

theorem parseAtom_quoted (t : List Char) (hq : '"' ∉ t) :
    parseAtom ('"' :: (t ++ ['"'])) = some t := by
  have hrev : (t ++ ['"']).reverse = '"' :: t.reverse := by simp
  have hu : unquoteAtom ('"' :: (t ++ ['"'])) = some t := by
    simp only [unquoteAtom, hrev, List.reverse_reverse]
    rw [if_neg (by simpa using hq)]
  simp only [parseAtom, hu]

theorem parseAtoms_orInterleave (ts : List (List Char)) (hts : ts ≠ [])
    (hq : ∀ t ∈ ts, '"' ∉ t) :
    parseAtoms (orInterleave (ts.map (fun t => '"' :: (t ++ ['"'])))) = some ts := by
  induction ts with
  | nil => exact absurd rfl hts
  | cons t rest ih =>
    cases rest with
    | nil =>
      simp only [List.map_cons, List.map_nil, orInterleave, parseAtoms,
        parseAtom_quoted t (hq t (List.mem_cons_self _ _))]
      rfl
    | cons t' rest' =>
      simp only [List.map_cons, orInterleave, parseAtoms]
      rw [if_pos trivial]
      rw [parseAtom_quoted t (hq t (List.mem_cons_self _ _))]
      have harg : ('"' :: (t' ++ ['"'])) :: (rest'.map fun u => '"' :: (u ++ ['"']))
          = (t' :: rest').map (fun u => '"' :: (u ++ ['"'])) := rfl
      rw [harg, ih (by simp) (fun u hu => hq u (List.mem_cons_of_mem _ hu))]

theorem splitWsAux_sound (l acc : List Char)
    (hacc : ∀ c ∈ acc, c.isWhitespace = false) :
    ∀ w ∈ splitWsAux l acc, w ≠ [] ∧ ∀ c ∈ w, c.isWhitespace = false := by
  induction l generalizing acc with
  | nil =>
    intro w hw
    rw [splitWsAux] at hw
    by_cases hac : acc = []
    · rw [if_pos hac] at hw
      cases hw
    · rw [if_neg hac] at hw
      rcases List.mem_singleton.mp hw with rfl
      refine ⟨by simpa using hac, ?_⟩
      intro c hc
      exact hacc c (by simpa using hc)
  | cons c cs ih =>
    intro w hw
    rw [splitWsAux] at hw
    by_cases hcw : c.isWhitespace = true
    · rw [if_pos hcw] at hw
      by_cases hac : acc = []
      · rw [if_pos hac] at hw
        exact ih [] (by simp) w hw
      · rw [if_neg hac] at hw
        rcases List.mem_cons.mp hw with rfl | hw'
        · refine ⟨by simpa using hac, ?_⟩
          intro c' hc'
          exact hacc c' (by simpa using hc')
        · exact ih [] (by simp) w hw'
    · rw [if_neg hcw] at hw
      refine ih (c :: acc) ?_ w hw
      intro c' hc'
      rcases List.mem_cons.mp hc' with rfl | hc''
      · simpa using hcw
      · exact hacc c' hc''

theorem strTrim_of_wsfree (t : String) (hne : t.data ≠ [])
    (hws : ∀ c ∈ t.data, c.isWhitespace = false) : strTrim t = t := by
  have htrim : ∀ (l : List Char), (∀ c ∈ l, c.isWhitespace = false) →
      trimLeftChars l = l := by
    intro l hl
    cases l with
    | nil => rfl
    | cons c cs =>
      rw [trimLeftChars, hl c (List.mem_cons_self _ _)]
      simp
  rw [strTrim]
  rw [htrim t.data.reverse (fun c hc => hws c (List.mem_reverse.mp hc))]
  rw [List.reverse_reverse]
  rw [htrim _ hws]

theorem quoted_data (t : String) :
    ("\"" ++ t ++ "\"").data = '"' :: (t.data ++ ['"']) := by
  simp

theorem mk_data_map (ts : List String) :
    (ts.map String.data).map String.mk = ts := by
  rw [List.map_map]
  have h : (String.mk ∘ String.data) = id := funext (fun _ => rfl)
  rw [h, List.map_id]

theorem ftsParse_quotedOr (ts : List String) (h2 : 2 ≤ ts.length)
    (hne : ∀ t ∈ ts, t.data ≠ [])
    (hws : ∀ t ∈ ts, ∀ c ∈ t.data, c.isWhitespace = false)
    (hq : ∀ t ∈ ts, '"' ∉ t.data) :
    ftsParse (joinWith " OR " (ts.map (fun t => "\"" ++ t ++ "\"")))
      = some (true, ts) := by
  have hcomp : (String.data ∘ fun t : String => "\"" ++ t ++ "\"")
      = ((fun u => '"' :: (u ++ ['"'])) ∘ String.data) := by
    funext t
    exact quoted_data t
  have hdata : (joinWith " OR " (ts.map (fun t => "\"" ++ t ++ "\""))).data
      = sepJoin (' ' :: 'O' :: 'R' :: [' '])
          ((ts.map String.data).map (fun u => '"' :: (u ++ ['"']))) := by
    rw [show (joinWith " OR " (ts.map (fun t => "\"" ++ t ++ "\""))).data
        = sepJoin (" OR ".data) ((ts.map (fun t => "\"" ++ t ++ "\"")).map String.data)
      from rfl]
    rw [List.map_map, List.map_map, hcomp]
  have htok : splitWsAux (joinWith " OR "
        (ts.map (fun t => "\"" ++ t ++ "\""))).data []
      = orInterleave ((ts.map String.data).map (fun u => '"' :: (u ++ ['"']))) := by
    rw [hdata]
    refine tokens_sepJoin_or _ ?_ ?_
    · intro u hu
      rw [List.map_map, List.mem_map] at hu
      obtain ⟨t, _, rfl⟩ := hu
      simp
    · intro u hu c hc
      rw [List.map_map, List.mem_map] at hu
      obtain ⟨t, ht, rfl⟩ := hu
      simp only [Function.comp] at hc
      rcases List.mem_cons.mp hc with rfl | hc'
      · decide
      · rcases List.mem_append.mp hc' with hc'' | hc''
        · exact hws t ht c hc''
        · rcases List.mem_singleton.mp hc'' with rfl
          decide
  obtain ⟨a, ts', rfl⟩ : ∃ a ts', ts = a :: ts' := by
    cases ts with
    | nil => simp at h2
    | cons a ts' => exact ⟨a, ts', rfl⟩
  obtain ⟨b, ts'', rfl⟩ : ∃ b ts'', ts' = b :: ts'' := by
    cases ts' with
    | nil => simp at h2
    | cons b ts'' => exact ⟨b, ts'', rfl⟩
  rw [ftsParse]
  rw [htok]
  have hORmem : (['O', 'R'] : List Char) ∈ orInterleave
      (((a :: b :: ts'').map String.data).map (fun u => '"' :: (u ++ ['"']))) := by
    simp only [List.map_cons, orInterleave]
    exact List.mem_cons_of_mem _ (List.mem_cons_self _ _)
  rw [if_pos (by simpa using hORmem)]
  have hparse := parseAtoms_orInterleave ((a :: b :: ts'').map String.data)
    (by simp)
    (by
      intro u hu
      rw [List.mem_map] at hu
      obtain ⟨t, ht, rfl⟩ := hu
      exact hq t ht)
  rw [hparse]
  rw [show Option.map (fun l : List (List Char) => (true, l.map String.mk))
        (some ((a :: b :: ts'').map String.data))
      = some (true, ((a :: b :: ts'').map String.data).map String.mk) from rfl]
  rw [mk_data_map]

theorem ftsParse_singleQuoted (t : String) (hne : t.data ≠ [])
    (hws : ∀ c ∈ t.data, c.isWhitespace = false) (hq : '"' ∉ t.data) :
    ftsParse ("\"" ++ t ++ "\"") = some (false, [t]) := by
  have htok : splitWsAux ("\"" ++ t ++ "\"").data []
      = ['"' :: (t.data ++ ['"'])] := by
    rw [quoted_data]
    have hw : ∀ c ∈ '"' :: (t.data ++ ['"']), c.isWhitespace = false := by
      intro c hc
      rcases List.mem_cons.mp hc with rfl | hc'
      · decide
      · rcases List.mem_append.mp hc' with hc'' | hc''
        · exact hws c hc''
        · rcases List.mem_singleton.mp hc'' with rfl
          decide
    rw [show ('"' :: (t.data ++ ['"'])) = ('"' :: (t.data ++ ['"'])) ++ [] by simp]
    rw [splitWsAux_append_word _ _ _ hw, splitWsAux]
    simp
  rw [ftsParse, htok]
  have hnotOR : ¬ (['O', 'R'] : List Char) ∈ ['"' :: (t.data ++ ['"'])] := by
    intro h
    rcases List.mem_singleton.mp h with h'
    have := congrArg (fun l => l.head?) h'
    simp at this
  rw [if_neg (by simpa using hnotOR)]
  have hp := parseAtom_quoted t.data hq
  simp only [parseAllAtoms, hp]
  rfl

/-- Claim C6 as stated is false on the code: the quoted-OR retry is
attempted only when the rejected query has more than one
whitespace-delimited term. A rejected single-term query (`c++`: the plus
signs make the parser reject it) returns no lexical candidates, even
though searching its single term quoted would match a document. -/
theorem c6_counterexample :
    ftsParse "c++" = none
  ∧ fts_search (db_search_fts_model [⟨1, ["c++"]⟩]) "c++" 10 = []
  ∧ search_fts (db_search_fts_model [⟨1, ["c++"]⟩]) "\"c++\"" 10 = [(1, 0)] := by
  refine ⟨by decide, by decide, by decide⟩

/-- Claim C6, amended: for a raw query the lexical parser rejects, the
engine retries with the quoted-OR query only when the query has at least
two whitespace-delimited terms, and that retry returns exactly the
documents matching at least one term — the union of the single-term
quoted searches; a rejected single-term query returns no lexical
candidates without any retry. (The quote-freeness hypothesis makes the
quoting faithful; a term containing `"` would corrupt the retry query.) -/
theorem c6_quoted_or_fallback (docs : List FtsDoc) (q : String) (limit : ℕ)
    (hrej : ftsParse q = none)
    (hq : ∀ t ∈ splitWs q, '"' ∉ t.data) :
    ((splitWs q).length ≤ 1 →
      fts_search (db_search_fts_model docs) q limit = [])
  ∧ (2 ≤ (splitWs q).length →
      fts_search (db_search_fts_model docs) q limit
        = ((docs.filter (fun d => (splitWs q).any (fun t => d.terms.contains t))).map
            (fun d => (d.id, (0 : ℚ)))).take limit)
  ∧ (2 ≤ (splitWs q).length → docs.length ≤ limit →
      ∀ i, (∃ p ∈ fts_search (db_search_fts_model docs) q limit, p.1 = i)
        ↔ ∃ t ∈ splitWs q, ∃ p ∈ search_fts (db_search_fts_model docs)
              ("\"" ++ t ++ "\"") limit, p.1 = i) := by
  have hterm : ∀ t ∈ splitWs q, t.data ≠ [] ∧ ∀ c ∈ t.data, c.isWhitespace = false := by
    intro t ht
    rw [splitWs, List.mem_map] at ht
    obtain ⟨w, hw, rfl⟩ := ht
    exact splitWsAux_sound q.data [] (by simp) w hw
  have hraw : search_fts (db_search_fts_model docs) q limit = [] := by
    rw [search_fts, db_search_fts_model, hrej]
    rfl
  have hfilter : (splitWs q).filter (fun t => strTrim t ≠ "") = splitWs q := by
    rw [List.filter_eq_self]
    intro t ht
    rw [decide_eq_true_eq]
    rw [strTrim_of_wsfree t (hterm t ht).1 (hterm t ht).2]
    intro hemp
    exact (hterm t ht).1 (by rw [hemp])
  have hor : 2 ≤ (splitWs q).length →
      fts_search (db_search_fts_model docs) q limit
        = ((docs.filter (fun d => (splitWs q).any (fun t => d.terms.contains t))).map
            (fun d => (d.id, (0 : ℚ)))).take limit := by
    intro h2
    rw [fts_search]
    simp only [hraw]
    rw [if_neg (by simp)]
    rw [if_pos (by omega), hfilter]
    rw [search_fts, db_search_fts_model,
      ftsParse_quotedOr (splitWs q) h2 (fun t ht => (hterm t ht).1)
        (fun t ht => (hterm t ht).2) hq]
    simp [docMatch]
  have hsingle : ∀ t ∈ splitWs q, docs.length ≤ limit →
      search_fts (db_search_fts_model docs) ("\"" ++ t ++ "\"") limit
        = (docs.filter (fun d => d.terms.contains t)).map
            (fun d => (d.id, (0 : ℚ))) := by
    intro t ht hlim
    rw [search_fts, db_search_fts_model,
      ftsParse_singleQuoted t (hterm t ht).1 (hterm t ht).2 (hq t ht)]
    have hlen : ((docs.filter (fun d => d.terms.contains t)).map
        (fun d => (d.id, (0 : ℚ)))).length ≤ limit := by
      rw [List.length_map]
      exact le_trans (List.length_filter_le _ _) hlim
    have hdm : (fun d => docMatch d (false, [t]))
        = (fun d : FtsDoc => d.terms.contains t) := by
      funext d
      rw [docMatch]
      simp
    rw [Option.getD_some, hdm]
    exact List.take_of_length_le hlen
  refine ⟨?_, hor, ?_⟩
  · intro h1
    rw [fts_search]
    simp only [hraw]
    rw [if_neg (by simp)]
    rw [if_neg (by omega)]
  · intro h2 hlim i
    have hfb : fts_search (db_search_fts_model docs) q limit
        = (docs.filter (fun d => (splitWs q).any (fun t => d.terms.contains t))).map
            (fun d => (d.id, (0 : ℚ))) := by
      have hlen : ((docs.filter (fun d => (splitWs q).any
          (fun t => d.terms.contains t))).map (fun d => (d.id, (0 : ℚ)))).length
            ≤ limit := by
        rw [List.length_map]
        exact le_trans (List.length_filter_le _ _) hlim
      rw [hor h2, List.take_of_length_le hlen]
    constructor
    · rintro ⟨p, hp, hpi⟩
      rw [hfb, List.mem_map] at hp
      obtain ⟨d, hd, rfl⟩ := hp
      rw [List.mem_filter] at hd
      obtain ⟨hddocs, hmatch⟩ := hd
      rw [List.any_eq_true] at hmatch
      obtain ⟨t, ht, hcont⟩ := hmatch
      refine ⟨t, ht, (d.id, 0), ?_, hpi⟩
      rw [hsingle t ht hlim, List.mem_map]
      exact ⟨d, List.mem_filter.mpr ⟨hddocs, hcont⟩, rfl⟩
    · rintro ⟨t, ht, p, hp, hpi⟩
      rw [hsingle t ht hlim, List.mem_map] at hp
      obtain ⟨d, hd, rfl⟩ := hp
      rw [List.mem_filter] at hd
      refine ⟨(d.id, 0), ?_, hpi⟩
      rw [hfb, List.mem_map]
      refine ⟨d, List.mem_filter.mpr ⟨hd.1, ?_⟩, rfl⟩
      rw [List.any_eq_true]
      exact ⟨t, ht, hd.2⟩

/-- Witness for C6 at a concrete rejected two-term query. -/
theorem c6_witness :
    fts_search (db_search_fts_model [⟨1, ["c++"]⟩, ⟨2, ["x"]⟩]) "c++ d++" 10
      = ((([⟨1, ["c++"]⟩, ⟨2, ["x"]⟩] : List FtsDoc).filter
          (fun d => (splitWs "c++ d++").any (fun t => d.terms.contains t))).map
            (fun d => (d.id, (0 : ℚ)))).take 10 :=
  (c6_quoted_or_fallback [⟨1, ["c++"]⟩, ⟨2, ["x"]⟩] "c++ d++" 10
    (by decide) (by decide)).2.1 (by decide)

end Broll
